import Mathlib

/-!
Verification of the muscanner scan engine (`src/scanner3.py`, with the
configuration-building slices of `src/gui_scanner_pro.py`).

The Python source is shallowly embedded below.  Conventions used throughout:

* Python `str` is modelled by Lean `String` (a wrapper around `List Char`);
  Python string indexing/slicing is over code points, which matches
  `String.data : List Char` exactly.
* Python `bytes` is modelled by `List Nat`, every element being a byte value
  `< 256` (hypotheses state this where it matters).
* Python `float` is modelled by `Rat`.  Every float the scanner compares is
  either exactly representable or the comparison is robust to the rounding
  (noted at the definition where this matters).
* Python `None`-or-value is modelled by `Option`.
* Filesystem state is modelled explicitly (`FileModel`, `FSTree`),
  and the fallible I/O operations of the source carry success flags.
* Unicode primitives the source delegates to the Python runtime
  (`str.casefold`, accent stripping via NFD, the `re` engine) are kept
  abstract: the functions that use them take them as explicit arguments.
-/

/- ==========================================================
   Python string primitives used by the scanner
   ========================================================== -/

/-- The whitespace characters recognised by Python's `str.strip()` for the
ASCII range (the inputs the scanner manipulates); `' '`, tab, LF, CR,
vertical tab, form feed. -/
def isPyWhitespace (c : Char) : Bool :=
  c = ' ' || c = '\t' || c = '\n' || c = '\r' || c = '\x0b' || c = '\x0c'

/-- Python `s.strip()`: drop leading and trailing whitespace. -/
def pyStrip (s : String) : String :=
  ⟨((s.data.dropWhile isPyWhitespace).reverse.dropWhile isPyWhitespace).reverse⟩

/-- Python `s.rstrip("\n\r")` as used on scanned lines. -/
def rstripCRLF (s : String) : String :=
  ⟨(s.data.reverse.dropWhile (fun c => c = '\n' || c = '\r')).reverse⟩

/-- Python substring test `needle in hay` (contiguous substring). -/
def strIn (needle hay : String) : Bool :=
  decide (needle.data <:+: hay.data)

/- ==========================================================
   csv.reader single-record model (scanner3.py line 137)

   State machine of the default csv dialect with
   skipinitialspace=True: delimiter `,`, quotechar `"`,
   doublequote on, non-strict.  `parse_queries` feeds the
   reader exactly one line; the multi-line continuation
   behaviour of the stdlib reader (quoted embedded newlines)
   is outside the modelled scope, so `\n`/`\r` are treated as
   ordinary field characters here.
   ========================================================== -/

inductive CsvState where
  | startRecord
  | startField
  | inField
  | inQuoted
  | quoteInQuoted
deriving DecidableEq

/-- One step of the csv reader state machine: current field (reversed) and
finished fields (reversed) are accumulated. -/
def csvAux : List Char → CsvState → List Char → List (List Char) → List (List Char)
  | [], st, cur, acc =>
    -- end of the single input line: save the pending field unless no
    -- character was ever consumed (an empty line yields an empty record)
    if st = CsvState.startRecord then acc.reverse
    else (cur.reverse :: acc).reverse
  | c :: rest, st, cur, acc =>
    match st with
    | CsvState.startRecord =>
      -- first character: behaves as the start of the first field
      if c = ' ' then csvAux rest CsvState.startField cur acc  -- skipinitialspace
      else if c = '"' then csvAux rest CsvState.inQuoted cur acc
      else if c = ',' then csvAux rest CsvState.startField [] ([] :: acc)
      else csvAux rest CsvState.inField (c :: cur) acc
    | CsvState.startField =>
      if c = ' ' then csvAux rest CsvState.startField cur acc  -- skipinitialspace
      else if c = '"' then csvAux rest CsvState.inQuoted cur acc
      else if c = ',' then csvAux rest CsvState.startField [] ([] :: acc)
      else csvAux rest CsvState.inField (c :: cur) acc
    | CsvState.inField =>
      if c = ',' then csvAux rest CsvState.startField [] (cur.reverse :: acc)
      else csvAux rest CsvState.inField (c :: cur) acc
    | CsvState.inQuoted =>
      if c = '"' then csvAux rest CsvState.quoteInQuoted cur acc
      else csvAux rest CsvState.inQuoted (c :: cur) acc
    | CsvState.quoteInQuoted =>
      if c = '"' then csvAux rest CsvState.inQuoted ('"' :: cur) acc  -- doubled quote
      else if c = ',' then csvAux rest CsvState.startField [] (cur.reverse :: acc)
      else csvAux rest CsvState.inField (c :: cur) acc  -- non-strict: text after closing quote

/-- Source `next(csv.reader([s], skipinitialspace=True))`: the fields of the single
record parsed from `s`. -/
def csvParseLine (s : String) : List String :=
  (csvAux s.data CsvState.startRecord [] []).map (fun f => ⟨f⟩)

/- ==========================================================
   parse_queries (scanner3.py lines 132-140)
   ========================================================== -/

/-- Source `s.startswith("\x7b") and s.endswith("\x7d")` and the brace stripping of
`parse_queries`: `s[1:-1].strip()` when the trimmed input is brace-enclosed. -/
def stripBraces (s : String) : String :=
  match s.data with
  | [] => s
  | c :: rest =>
    if c = '\x7b' ∧ rest.getLast? = some '\x7d' then
      pyStrip ⟨(c :: rest).drop 1 |>.dropLast⟩
    else s

/-- The term list produced by the csv parse, trimmed and with blank entries
dropped (`[p.strip() for p in parts if p.strip()]`). -/
def parsedQueries (raw : String) : List String :=
  ((csvParseLine (stripBraces (pyStrip raw))).map pyStrip).filter (fun p => p ≠ "")

/-- Source `parse_queries`: fall back to the stripped raw input when the parse
yields nothing. -/
def parse_queries (raw : String) : List String :=
  if parsedQueries raw = [] then [pyStrip raw] else parsedQueries raw


/- ==========================================================
   Normalisation and matchers (scanner3.py lines 153-230)

   `strip_accents` (NFD + drop combining marks) and
   `str.casefold` are Unicode-table primitives supplied by the
   Python runtime; they are abstracted as function arguments
   `stripAccentsF` / `casefoldF`.  The `re` engine is likewise
   abstracted as `regexSearch pattern flags text`.
   ========================================================== -/

/-- Source `prep(s, case_sensitive, ignore_accents)`: optional accent stripping,
then optional case folding. -/
def prep (stripAccentsF casefoldF : String → String)
    (s : String) (case_sensitive ignore_accents : Bool) : String :=
  let out := if ignore_accents then stripAccentsF s else s
  if !case_sensitive then casefoldF out else out

/-- Source `MatchMode.CONTAINS = "c"`. -/
def matchModeContains : String := "c"

/-- Source `MatchMode.REGEX = "r"`. -/
def matchModeRegex : String := "r"

/-- Source `MatchMode.FUZZY = "f"`. -/
def matchModeFuzzy : String := "f"

/-- Python `re.IGNORECASE`. -/
def reIgnorecase : Nat := 2

/-- Python `re.DOTALL`. -/
def reDotall : Nat := 16

/-- The `MatchConfig` dataclass (scanner3.py lines 173-180); the float
`fuzzy_threshold` is modelled as `Rat`. -/
structure MatchConfig where
  query : String
  mode : String := matchModeContains
  case_sensitive : Bool := false
  ignore_accents : Bool := true
  fuzzy_threshold : Rat := (39 : Rat) / 50
  regex_flags : Nat := 0
deriving Repr

/- ==========================================================
   difflib.SequenceMatcher(None, a, b).ratio()

   The fuzzy matcher (scanner3.py lines 196-208) computes
   `SequenceMatcher(None, a, b).ratio()`.  The stdlib algorithm
   is embedded here: junk classification with the default
   autojunk heuristic, `find_longest_match` (main loop plus the
   four extension loops), the recursive region splitting of
   `get_matching_blocks`, and `_calculate_ratio`.  `ratio()`
   only consumes the *sum* of the matching block sizes, which
   the sorting/merging of `get_matching_blocks` leaves
   unchanged, so the sum is computed directly by recursion over
   the split regions.
   ========================================================== -/

/-- Total indexing helper for `a[i]` (all uses are in range). -/
def chGet (s : List Char) (i : Nat) : Char :=
  s.getD i ' '

/-- The autojunk heuristic of `SequenceMatcher.__chain_b` with `isjunk=None`:
for `len(b) >= 200`, an element occurring more than `len(b) // 100 + 1`
times is popular and treated as junk. -/
def isbjunk (b : List Char) (c : Char) : Bool :=
  decide (200 ≤ b.length) && decide (b.length / 100 + 1 < b.count c)

/-- Source `self.b2j[c]`: the ascending positions of `c` in `b`, with junk
(popular) elements deleted. -/
def b2j (b : List Char) (c : Char) : List Nat :=
  if isbjunk b c then []
  else (List.range b.length).filter (fun j => chGet b j = c)

/-- The inner loop of `find_longest_match` over `b2j.get(a[i], [])`:
`j < blo` is skipped, `j >= bhi` breaks, otherwise
`k = newj2len[j] = j2len.get(j-1, 0) + 1` (with Python's `j2len.get(-1, 0)`
= 0 rendered by the `j = 0` case) and the best triple is updated when
`k > bestsize`.  Returns the updated `newj2len` and best triple. -/
def flmInner (j2len : Nat → Nat) (blo bhi i : Nat) :
    List Nat → (Nat → Nat) → Nat × Nat × Nat → (Nat → Nat) × (Nat × Nat × Nat)
  | [], newj2len, best => (newj2len, best)
  | j :: rest, newj2len, best =>
    if j < blo then flmInner j2len blo bhi i rest newj2len best
    else if bhi ≤ j then (newj2len, best)
    else
      let k := (if j = 0 then 0 else j2len (j - 1)) + 1
      let newj2len' := fun x => if x = j then k else newj2len x
      let best' := if best.2.2 < k then (i + 1 - k, j + 1 - k, k) else best
      flmInner j2len blo bhi i rest newj2len' best'

/-- The outer loop `for i in range(alo, ahi)` of `find_longest_match`,
counting down the remaining iterations; each round starts from an empty
`newj2len` and installs it as `j2len` for the next round. -/
def flmOuter (a b : List Char) (blo bhi : Nat) :
    Nat → Nat → (Nat → Nat) → Nat × Nat × Nat → Nat × Nat × Nat
  | _, 0, _, best => best
  | i, cnt + 1, j2len, best =>
    let r := flmInner j2len blo bhi i (b2j b (chGet a i)) (fun _ => 0) best
    flmOuter a b blo bhi (i + 1) cnt r.1 r.2

/-- First extension loop: extend the best block leftwards over equal
non-junk elements (`while besti > alo and bestj > blo and ...`).  Each
iteration decrements `besti` by one, so the recursion is structural on it;
in the `0` case the loop guard `besti > alo` is false anyway. -/
def extNonjunkLeft (a b : List Char) (alo blo : Nat) :
    Nat → Nat → Nat → Nat × Nat × Nat
  | 0, bestj, bestsize => (0, bestj, bestsize)
  | besti + 1, bestj, bestsize =>
    if alo < besti + 1 ∧ blo < bestj ∧ isbjunk b (chGet b (bestj - 1)) = false ∧
        chGet a besti = chGet b (bestj - 1) then
      extNonjunkLeft a b alo blo besti (bestj - 1) (bestsize + 1)
    else (besti + 1, bestj, bestsize)

/-- Second extension loop: extend rightwards over equal non-junk elements
(`while besti+bestsize < ahi and ...`).  `rem` counts the remaining room
`ahi - (besti + bestsize)`, which decreases by one per iteration; the
wrapper below instantiates it, and the full loop guard is still checked at
every step. -/
def extRightAux (a b : List Char) (ahi bhi : Nat) (junkFlag : Bool)
    (besti bestj : Nat) : Nat → Nat → Nat × Nat × Nat
  | 0, bestsize => (besti, bestj, bestsize)
  | rem + 1, bestsize =>
    if besti + bestsize < ahi ∧ bestj + bestsize < bhi ∧
        isbjunk b (chGet b (bestj + bestsize)) = junkFlag ∧
        chGet a (besti + bestsize) = chGet b (bestj + bestsize) then
      extRightAux a b ahi bhi junkFlag besti bestj rem (bestsize + 1)
    else (besti, bestj, bestsize)

/-- Second extension loop, at its correct iteration bound. -/
def extNonjunkRight (a b : List Char) (ahi bhi besti bestj bestsize : Nat) :
    Nat × Nat × Nat :=
  extRightAux a b ahi bhi false besti bestj (ahi - (besti + bestsize)) bestsize

/-- Third extension loop: extend leftwards over equal junk elements. -/
def extJunkLeft (a b : List Char) (alo blo : Nat) :
    Nat → Nat → Nat → Nat × Nat × Nat
  | 0, bestj, bestsize => (0, bestj, bestsize)
  | besti + 1, bestj, bestsize =>
    if alo < besti + 1 ∧ blo < bestj ∧ isbjunk b (chGet b (bestj - 1)) = true ∧
        chGet a besti = chGet b (bestj - 1) then
      extJunkLeft a b alo blo besti (bestj - 1) (bestsize + 1)
    else (besti + 1, bestj, bestsize)

/-- Fourth extension loop: extend rightwards over equal junk elements. -/
def extJunkRight (a b : List Char) (ahi bhi besti bestj bestsize : Nat) :
    Nat × Nat × Nat :=
  extRightAux a b ahi bhi true besti bestj (ahi - (besti + bestsize)) bestsize

/-- Source `SequenceMatcher.find_longest_match(alo, ahi, blo, bhi)`:
the main double loop followed by the four extension loops. -/
def find_longest_match (a b : List Char) (alo ahi blo bhi : Nat) : Nat × Nat × Nat :=
  let m0 := flmOuter a b blo bhi alo (ahi - alo) (fun _ => 0) (alo, blo, 0)
  let m1 := extNonjunkLeft a b alo blo m0.1 m0.2.1 m0.2.2
  let m2 := extNonjunkRight a b ahi bhi m1.1 m1.2.1 m1.2.2
  let m3 := extJunkLeft a b alo blo m2.1 m2.2.1 m2.2.2
  extJunkRight a b ahi bhi m3.1 m3.2.1 m3.2.2

/-- Sum of the matching-block sizes over the region-splitting recursion of
`get_matching_blocks` (stack entries `(alo, i, blo, j)` / `(i+k, ahi, j+k, bhi)`
pushed only for non-degenerate halves, exactly as in the stdlib).  The
recursion is driven by a fuel counter; `(ahi - alo) + (bhi - blo)` strictly
decreases at each split, so the initial fuel `a.length + b.length` used by
`seqMatches` is always sufficient. -/
def matchesTotalF (a b : List Char) : Nat → Nat → Nat → Nat → Nat → Nat
  | 0, _, _, _, _ => 0
  | fuel + 1, alo, ahi, blo, bhi =>
    let m := find_longest_match a b alo ahi blo bhi
    let i := m.1
    let j := m.2.1
    let k := m.2.2
    if k = 0 then 0
    else
      k + (if alo < i ∧ blo < j then matchesTotalF a b fuel alo i blo j else 0)
        + (if i + k < ahi ∧ j + k < bhi then matchesTotalF a b fuel (i + k) ahi (j + k) bhi else 0)

/-- Source `sum(size for _, _, size in sm.get_matching_blocks())`. -/
def seqMatches (a b : List Char) : Nat :=
  matchesTotalF a b (a.length + b.length) 0 a.length 0 b.length

/-- Source `SequenceMatcher(None, a, b).ratio()` via `_calculate_ratio`:
`2.0 * matches / (len(a) + len(b))`, and `1.0` when both are empty. -/
def seqRatioVal (a b : List Char) : Rat :=
  if a.length + b.length ≠ 0 then
    (2 * seqMatches a b : Rat) / ((a.length : Rat) + (b.length : Rat))
  else 1


/- ==========================================================
   build_single_matcher / build_multi_matcher
   (scanner3.py lines 183-230)
   ========================================================== -/

/-- Source `build_single_matcher(cfg)`: dispatch on `cfg.mode` exactly as the
source does (regex, then fuzzy, then contains for anything else).
`regexSearch pattern flags text` abstracts `re.compile(pattern, flags)
.search(text) is not None`. -/
def build_single_matcher (stripAccentsF casefoldF : String → String)
    (regexSearch : String → Nat → String → Bool)
    (cfg : MatchConfig) : String → Bool :=
  if cfg.mode = matchModeRegex then
    let flags := if !cfg.case_sensitive then Nat.lor cfg.regex_flags reIgnorecase
      else cfg.regex_flags
    fun text => regexSearch cfg.query flags text
  else if cfg.mode = matchModeFuzzy then
    let qn := prep stripAccentsF casefoldF cfg.query cfg.case_sensitive cfg.ignore_accents
    fun text =>
      let tn := prep stripAccentsF casefoldF text cfg.case_sensitive cfg.ignore_accents
      if strIn qn tn then true
      else decide (cfg.fuzzy_threshold ≤ seqRatioVal qn.data tn.data)
  else
    let qn := prep stripAccentsF casefoldF cfg.query cfg.case_sensitive cfg.ignore_accents
    fun text => strIn qn (prep stripAccentsF casefoldF text cfg.case_sensitive cfg.ignore_accents)

/-- Source `build_multi_matcher(queries, base_cfg)`: one single-term matcher per
query (the base configuration with the query substituted), ANDed over the
same text. -/
def build_multi_matcher (stripAccentsF casefoldF : String → String)
    (regexSearch : String → Nat → String → Bool)
    (queries : List String) (base_cfg : MatchConfig) : String → Bool :=
  let matchers := queries.map
    (fun q => build_single_matcher stripAccentsF casefoldF regexSearch
      { base_cfg with query := q })
  fun text => matchers.all (fun m => m text)

/- ==========================================================
   The three MatchConfig construction paths (C3)

   interactive_main  (scanner3.py lines 817-855)
   cli_main          (scanner3.py lines 1073-1080)
   ScannerGUI._run_scan (gui_scanner_pro.py lines 719-726)
   ========================================================== -/

/-- Source `interactive_main`: `ignore_accents = True` is asked about only when the
mode is not regex (lines 817-819); the fuzzy threshold answer is parsed and
clamped to [0.50, 0.95] with 0.78 on a parse failure (lines 834-841,
`fuzzyAnswer = none` models an unparsable answer); DOTALL is offered only
for regex (lines 843-846). -/
def interactiveBaseCfg (matchMode : String) (caseSensitive : Bool)
    (accentsAnswer : Bool) (fuzzyAnswer : Option Rat) (dotallAnswer : Bool) :
    MatchConfig :=
  { query := ""
    mode := matchMode
    case_sensitive := caseSensitive
    ignore_accents := if matchMode ≠ matchModeRegex then accentsAnswer else true
    fuzzy_threshold :=
      if matchMode = matchModeFuzzy then
        match fuzzyAnswer with
        | some t => max ((1 : Rat) / 2) (min ((19 : Rat) / 20) t)
        | none => (39 : Rat) / 50
      else (39 : Rat) / 50
    regex_flags := if matchMode = matchModeRegex ∧ dotallAnswer then reDotall else 0 }

/-- Source `cli_main` (lines 1073-1080): `ignore_accents=(not args.no_accents) if
match_mode != MatchMode.REGEX else False`. -/
def cliBaseCfg (matchMode : String) (caseFlag noAccentsFlag : Bool)
    (fuzzyThreshold : Rat) : MatchConfig :=
  { query := ""
    mode := matchMode
    case_sensitive := caseFlag
    ignore_accents := if matchMode ≠ matchModeRegex then !noAccentsFlag else false
    fuzzy_threshold := fuzzyThreshold
    regex_flags := 0 }

/-- Source `ScannerGUI._run_scan` (gui_scanner_pro.py lines 719-726):
`ignore_accents=bool(self.accents_var.get()) if match_mode != s3.MatchMode.REGEX
else False`. -/
def guiBaseCfg (matchMode : String) (caseVar accentsVar : Bool) : MatchConfig :=
  { query := ""
    mode := matchMode
    case_sensitive := caseVar
    ignore_accents := if matchMode ≠ matchModeRegex then accentsVar else false
    fuzzy_threshold := (39 : Rat) / 50
    regex_flags := 0 }

/- ==========================================================
   Binary heuristic and encoding detection
   (scanner3.py lines 341-358)
   ========================================================== -/

/-- Source `looks_binary(sample)`: a null byte, or more than 12% control bytes
outside the common whitespace range.  The float comparison
`nontext / len(sample) > 0.12` is exact for the rationals that can arise
from an 8 KiB sample (they are farther from 0.12 than the rounding error
of an IEEE division, or exactly 0.12, where both sides agree), so it is
rendered by the equivalent integer comparison. -/
def looksBinary (sample : List Nat) : Bool :=
  if sample.contains 0 then true
  else
    let nontext := sample.countP (fun byt => byt < 9 || (13 < byt && byt < 32))
    decide (0 < sample.length) && decide (sample.length * 12 < nontext * 100)

/-- Strict decodability of a continuation byte `0x80..0xBF`. -/
def utf8Cont (byt : Nat) : Bool :=
  decide (128 ≤ byt) && decide (byt < 192)

/-- Strict UTF-8 validity, as applied by `bytes.decode("utf-8", "strict")`:
rejects continuation-only bytes, overlong encodings, surrogates and values
beyond U+10FFFF; a sequence truncated mid-character is invalid. -/
def utf8Strict : List Nat → Bool
  | [] => true
  | b0 :: rest =>
    if b0 < 128 then utf8Strict rest
    else if b0 < 194 then false
    else if b0 < 224 then
      match rest with
      | b1 :: r => utf8Cont b1 && utf8Strict r
      | [] => false
    else if b0 < 240 then
      match rest with
      | b1 :: b2 :: r =>
        (if b0 = 224 then decide (160 ≤ b1) && decide (b1 < 192)
         else if b0 = 237 then decide (128 ≤ b1) && decide (b1 < 160)
         else utf8Cont b1) && utf8Cont b2 && utf8Strict r
      | _ => false
    else if b0 < 245 then
      match rest with
      | b1 :: b2 :: b3 :: r =>
        (if b0 = 240 then decide (144 ≤ b1) && decide (b1 < 192)
         else if b0 = 244 then decide (128 ≤ b1) && decide (b1 < 144)
         else utf8Cont b1) && utf8Cont b2 && utf8Cont b3 && utf8Strict r
      | _ => false
    else false

/-- Source `bytes.decode("utf-8-sig", "strict")`: an optional UTF-8 byte-order
mark `EF BB BF` is stripped, the rest must be strict UTF-8. -/
def utf8SigStrict (bs : List Nat) : Bool :=
  match bs with
  | 239 :: 187 :: 191 :: rest => utf8Strict rest
  | _ => utf8Strict bs

/-- The five byte values undefined in Windows code page 1252; any other
byte decodes. -/
def cp1252Undefined : List Nat := [129, 141, 143, 144, 157]

/-- Source `bytes.decode("cp1252", "strict")` succeeds iff no undefined byte
occurs. -/
def cp1252Strict (bs : List Nat) : Bool :=
  bs.all (fun byt => decide (byt < 256) && !(cp1252Undefined.contains byt))

/-- Source `bytes.decode("latin-1", "strict")`: ISO-8859-1 maps every byte value,
so strict decoding always succeeds on bytes. -/
def latin1Strict (bs : List Nat) : Bool :=
  bs.all (fun byt => decide (byt < 256))

/-- Source `sample.decode(enc, errors="strict")` succeeds — dispatch on the codec
name; an unknown name raises in Python, which the caller's `except` turns
into a failure, i.e. `false`. -/
def decodesStrict (enc : String) (bs : List Nat) : Bool :=
  if enc = "utf-8" then utf8Strict bs
  else if enc = "utf-8-sig" then utf8SigStrict bs
  else if enc = "cp1252" then cp1252Strict bs
  else if enc = "latin-1" then latin1Strict bs
  else false

/-- Source `ENC_CANDIDATES = ("utf-8", "utf-8-sig", "cp1252", "latin-1")`. -/
def ENC_CANDIDATES : List String := ["utf-8", "utf-8-sig", "cp1252", "latin-1"]

/-- Source `detect_encoding_by_sample`: the first candidate that decodes the
sample strictly, else `None`. -/
def detect_encoding_by_sample (sample : List Nat) (candidates : List String) :
    Option String :=
  candidates.find? (fun enc => decodesStrict enc sample)

/-- The encoding the content scanner actually reads with (scanner3.py line
387): `detect_encoding_by_sample(sample, ENC_CANDIDATES) or "utf-8"`. -/
def chosenEncoding (sample : List Nat) : String :=
  (detect_encoding_by_sample sample ENC_CANDIDATES).getD ("utf-8")

/- ==========================================================
   scan_file_content (scanner3.py lines 361-424)
   ========================================================== -/

/-- The `ContentHit` dataclass. -/
structure ContentHit where
  path : String
  matches_count : Nat
  examples : List (Nat × String)
deriving Repr, DecidableEq

/-- One file as the content scanner observes it: the `stat` result (`none`
models a raised exception), whether the binary-mode open and sample read
succeed, the leading `bf.read(8192)` sample, whether the text-mode line
iteration completes without raising, and the decoded line sequence as a
function of the encoding used (decoding itself never raises, the read uses
`errors="replace"`). -/
structure FileModel where
  path : String
  statSize : Option Nat
  openOk : Bool
  sampleBytes : List Nat
  readOk : Bool
  lines : String → List String

/-- Source `HARD_CAP_PER_FILE = 50000`. -/
def HARD_CAP_PER_FILE : Nat := 50000

/-- The snippet captured for a matching line: trailing CR/LF stripped and
truncated to 240 characters plus an ellipsis when longer. -/
def truncSnippet (line : String) : String :=
  let snippet := rstripCRLF line
  if 240 < snippet.data.length then ⟨snippet.data.take 240 ++ ['…']⟩
  else snippet

/-- The `for i, line in enumerate(tf, start=1)` loop of `scan_file_content`:
`i` is the 1-based line number, `matches`/`examples` the accumulators.
A matching line always increments `matches`; `max_examples == 0` captures
nothing; `max_examples is None` captures up to `HARD_CAP_PER_FILE`;
otherwise up to `max_examples` snippets are captured. -/
def scanLinesAux (matcher : String → Bool) (maxExamples : Option Nat) :
    List String → Nat → Nat → List (Nat × String) → Nat × List (Nat × String)
  | [], _, mcount, examples => (mcount, examples)
  | line :: rest, i, mcount, examples =>
    if matcher line then
      if maxExamples = some 0 then
        scanLinesAux matcher maxExamples rest (i + 1) (mcount + 1) examples
      else
        match maxExamples with
        | none =>
          if HARD_CAP_PER_FILE ≤ examples.length then
            scanLinesAux matcher maxExamples rest (i + 1) (mcount + 1) examples
          else
            scanLinesAux matcher maxExamples rest (i + 1) (mcount + 1)
              (examples ++ [(i, truncSnippet line)])
        | some n =>
          if examples.length < n then
            scanLinesAux matcher maxExamples rest (i + 1) (mcount + 1)
              (examples ++ [(i, truncSnippet line)])
          else
            scanLinesAux matcher maxExamples rest (i + 1) (mcount + 1) examples
    else scanLinesAux matcher maxExamples rest (i + 1) mcount examples

/-- Source `scan_file_content(file_path, matcher, max_examples, max_file_size_mb)`:
stat failure, an oversize file, an unreadable or binary sample, or a read
failure yield `None`; otherwise the line loop runs and a `ContentHit` is
returned exactly when `matches > 0`. -/
def scan_file_content (f : FileModel) (matcher : String → Bool)
    (maxExamples : Option Nat) (maxFileSizeMb : Option Nat) : Option ContentHit :=
  match f.statSize with
  | none => none
  | some size =>
    if (match maxFileSizeMb with
        | some mb => decide (mb * 1024 * 1024 < size)
        | none => false) then none
    else if !f.openOk then none
    else if looksBinary f.sampleBytes then none
    else
      let enc := chosenEncoding f.sampleBytes
      if !f.readOk then none
      else
        let r := scanLinesAux matcher maxExamples (f.lines enc) 1 0 []
        if 0 < r.1 then some { path := f.path, matches_count := r.1, examples := r.2 }
        else none

/-- The number of lines of `ls` on which `matcher` holds — the reference
value for `matches_count`. -/
def matchingLineCount (matcher : String → Bool) (ls : List String) : Nat :=
  ls.countP matcher

/-- The hypotheses under which `scan_file_content` reaches the line loop:
stat succeeds, the size ceiling (if any) is not exceeded, the sample reads
fine and does not look binary, and the text read completes. -/
def reachesLineLoop (f : FileModel) (maxFileSizeMb : Option Nat) : Prop :=
  (∃ size, f.statSize = some size ∧
    (∀ mb, maxFileSizeMb = some mb → size ≤ mb * 1024 * 1024)) ∧
  f.openOk = true ∧ looksBinary f.sampleBytes = false ∧ f.readOk = true

/- ==========================================================
   iter_dirs_files (scanner3.py lines 246-265)

   A static directory tree is a finite rose tree; paths are
   lists of path segments relative to the base (so `[]` is the
   base itself).  `os.walk` visits a directory top-down:
   the pruned subdirectory names and the file names of the
   current directory are yielded, then each kept subdirectory
   is walked, in order.
   ========================================================== -/

inductive FSTree where
  | file (name : String)
  | dir (name : String) (children : List FSTree)
deriving Repr

/-- The entry's name (final path segment). -/
def FSTree.fsname : FSTree → String
  | FSTree.file n => n
  | FSTree.dir n _ => n

/-- Source `p.is_dir()`. -/
def FSTree.isDirB : FSTree → Bool
  | FSTree.file _ => false
  | FSTree.dir _ _ => true

/-- The subdirectory names of a directory listing after the in-place prune
`dirs[:] = [d for d in dirs if d not in ignore_dirs]`. -/
def keptDirNames (ignore : List String) (children : List FSTree) : List String :=
  ((children.filter FSTree.isDirB).map FSTree.fsname).filter (fun d => !ignore.contains d)

/-- The file names of a directory listing. -/
def fileNames (children : List FSTree) : List String :=
  (children.filter (fun c => !c.isDirB)).map FSTree.fsname

mutual

/-- The entries `os.walk` emits for one directory (kept dirs, then files),
followed by the walks of its kept subdirectories. -/
def walkDirNode (ignore : List String) (path : List String)
    (children : List FSTree) : List (List String × Bool) :=
  (keptDirNames ignore children).map (fun d => (path ++ [d], true)) ++
  (fileNames children).map (fun f => (path ++ [f], false)) ++
  walkSubdirs ignore path children

/-- Walk the kept subdirectories of a listing, in order; pruned
subdirectories are not descended into. -/
def walkSubdirs (ignore : List String) (path : List String) :
    List FSTree → List (List String × Bool)
  | [] => []
  | FSTree.file _ :: rest => walkSubdirs ignore path rest
  | FSTree.dir nm cs :: rest =>
    (if ignore.contains nm then [] else walkDirNode ignore (path ++ [nm]) cs) ++
    walkSubdirs ignore path rest

end

/-- Source `iter_dirs_files(base, recursive, ignore_dirs)`: a file base yields
itself (non-directory); a non-recursive directory base yields its
immediate children unpruned; a recursive directory base is walked with
pruning.  Paths are relative to the base. -/
def iter_dirs_files (base : FSTree) (recursive : Bool) (ignore : List String) :
    List (List String × Bool) :=
  match base with
  | FSTree.file _ => [([], false)]
  | FSTree.dir _ children =>
    if !recursive then children.map (fun c => ([c.fsname], c.isDirB))
    else walkDirNode ignore [] children

mutual

/-- Sibling names are distinct in any real directory listing; the
uniqueness claim of the enumerator is stated under this well-formedness
condition. -/
def wellFormedTree : FSTree → Bool
  | FSTree.file _ => true
  | FSTree.dir _ cs => decide ((cs.map FSTree.fsname).Nodup) && wellFormedForest cs

/-- All trees of a listing are well-formed. -/
def wellFormedForest : List FSTree → Bool
  | [] => true
  | t :: rest => wellFormedTree t && wellFormedForest rest

end

/- ==========================================================
   Proof device for the identical-strings ratio theorem
   ========================================================== -/

/-- The length of the longest common suffix of `s[..i]` and `s[..j]` whose
`j`-side (equivalently, by character equality, both sides) consists of
non-junk characters, cut off below `lo` on either side.  This is the value
`find_longest_match`'s `j2len` accumulates along its inner loop when both
sequences are `s` and the region starts at `lo`. -/
def nrun (s : List Char) (lo : Nat) (i j : Nat) : Nat :=
  if chGet s i = chGet s j ∧ isbjunk s (chGet s j) = false then
    if h : lo < i ∧ lo < j then nrun s lo (i - 1) (j - 1) + 1 else 1
  else 0
termination_by i
decreasing_by exact Nat.sub_lt (Nat.lt_of_le_of_lt (Nat.zero_le _) h.1) Nat.one_pos

/- ==========================================================
   Concrete fixtures used by the closed-instance theorems
   ========================================================== -/

/-- A text file with one non-matching line. -/
def fixtureNoMatch : FileModel :=
  FileModel.mk ("nm.dat") (some 1) true [97] true (fun _ => ["b"])

/-- A text file with two matching lines (lines 1 and 3). -/
def fixtureTwoMatch : FileModel :=
  FileModel.mk ("tm.dat") (some 1) true [97] true (fun _ => ["a", "b", "a"])

/-- The matcher "the line is exactly `a`". -/
def fixtureMatcherA : String → Bool := fun s => decide (s = "a")

/-- A small directory tree: an ignorable directory, a kept directory, and
a file that shares the ignorable name. -/
def fixtureTree : FSTree :=
  FSTree.dir ("root")
    [FSTree.dir (".git") [FSTree.file ("x")],
     FSTree.dir ("a") [FSTree.file ("f1"), FSTree.file (".git")]]

/- ==========================================================
   Theorems
   ========================================================== -/

/-- Applying a list of functions built by `map` pointwise: the `all` over
the mapped list at a fixed argument is the `all` of the images. -/
theorem all_map_apply {α : Type} (l : List α) (fn : α → String → Bool) (t : String) :
    (l.map fn).all (fun m => m t) = l.all (fun q => fn q t) := by
  induction l with
  | nil => rfl
  | cons q qs ih => simp [ih]

/-- C1: for every base configuration, non-empty ordered list of query
terms, and text unit, the predicate built by `build_multi_matcher` returns
true on the text iff the single-term matcher built for each term returns
true on that same text (logical AND over the same text unit). -/
theorem composite_matcher_is_and_of_singles
    (stripAccentsF casefoldF : String → String)
    (regexSearch : String → Nat → String → Bool)
    (queries : List String) (base_cfg : MatchConfig) (text : String)
    (_hne : queries ≠ []) :
    build_multi_matcher stripAccentsF casefoldF regexSearch queries base_cfg text =
      queries.all (fun q =>
        build_single_matcher stripAccentsF casefoldF regexSearch
          { base_cfg with query := q } text) := by
  unfold build_multi_matcher
  exact all_map_apply queries _ text

/-- Witness for C1 at a concrete two-term query list. -/
theorem composite_matcher_is_and_of_singles_witness :
    (["ab", "cd"] : List String) ≠ [] ∧
    build_multi_matcher id id (fun _ _ _ => true) ["ab", "cd"]
        { query := "" } ("abxcd") =
      (["ab", "cd"] : List String).all (fun q =>
        build_single_matcher id id (fun _ _ _ => true)
          { MatchConfig.mk "" matchModeContains false true ((39 : Rat) / 50) 0
              with query := q } ("abxcd")) := by
  refine ⟨by decide, ?_⟩
  exact composite_matcher_is_and_of_singles id id (fun _ _ _ => true)
    ["ab", "cd"] { query := "" } ("abxcd") (by decide)

/-- C3 counterexample: the interactive flow hands the matcher builder a
Regex configuration whose `ignore_accents` is `true` (the field is
initialised to `True` and the question is skipped for Regex, so it is
never forced to `False` there), even when the user's accent answer would
have been `false`. -/
theorem interactive_regex_keeps_ignore_accents_true :
    (interactiveBaseCfg matchModeRegex false false none false).ignore_accents = true := by
  decide

/-- C3 (amended): the non-interactive CLI flow and the GUI flow force
`ignore_accents = false` whenever the selected mode is Regex; the
interactive flow instead leaves the field at its initial `true` (the regex
matcher never reads the flag, so behaviour is unaffected). -/
theorem regex_mode_ignore_accents_by_path
    (caseFlag noAccentsFlag caseVar accentsVar caseI accAns dotAns : Bool)
    (ft : Rat) (fa : Option Rat) :
    (cliBaseCfg matchModeRegex caseFlag noAccentsFlag ft).ignore_accents = false ∧
    (guiBaseCfg matchModeRegex caseVar accentsVar).ignore_accents = false ∧
    (interactiveBaseCfg matchModeRegex caseI accAns fa dotAns).ignore_accents = true := by
  refine ⟨?_, ?_, ?_⟩ <;> simp [cliBaseCfg, guiBaseCfg, interactiveBaseCfg]

/-- C5 counterexample: on an all-whitespace input the fallback term is the
empty string, so not every returned term is non-empty. -/
theorem parse_queries_blank_input_empty_term :
    parse_queries (" ") = [""] ∧ "" ∈ parse_queries (" ") := by
  decide

/-- C5 (amended): `parse_queries` always returns a non-empty list; when the
termlist parse yields no terms the result is exactly the raw input with
surrounding whitespace trimmed, as a single term; and every returned term
is non-empty provided the trimmed raw input is non-empty (for blank input
the single fallback term is the empty string). -/
theorem parse_queries_amended_spec (raw : String) :
    parse_queries raw ≠ [] ∧
    (parsedQueries raw = [] → parse_queries raw = [pyStrip raw]) ∧
    (pyStrip raw ≠ "" → ∀ t ∈ parse_queries raw, t ≠ "") := by
  by_cases h : parsedQueries raw = []
  · refine ⟨by simp [parse_queries, h], fun _ => by simp [parse_queries, h], ?_⟩
    intro hne t ht
    simp [parse_queries, h] at ht
    simpa [ht] using hne
  · refine ⟨by simp [parse_queries, h], fun hc => absurd hc h, ?_⟩
    intro _ t ht
    simp only [parse_queries, if_neg h] at ht
    exact of_decide_eq_true (List.mem_filter.mp ht).2

/-- Witness for C5 at the concrete input `"\x7b,\x7d"`, where the parse
yields nothing and the trimmed input is non-empty. -/
theorem parse_queries_amended_spec_witness :
    parse_queries ("\x7b,\x7d") ≠ [] ∧
    parse_queries ("\x7b,\x7d") = [pyStrip ("\x7b,\x7d")] ∧
    ∀ t ∈ parse_queries ("\x7b,\x7d"), t ≠ "" := by
  obtain ⟨h1, h2, h3⟩ := parse_queries_amended_spec ("\x7b,\x7d")
  exact ⟨h1, h2 (by decide), h3 (by decide)⟩

/-- C9: for every byte sample, the detector with the default candidate
list returns some encoding — latin-1 strictly decodes every byte sequence,
so the final candidate always succeeds — and that encoding is exactly the
one the content scanner reads with, making the `or "utf-8"` fallback for
an undecidable encoding unreachable. -/
theorem detect_encoding_total (sample : List Nat)
    (hbytes : sample.all (fun byt => decide (byt < 256)) = true) :
    ∃ enc, detect_encoding_by_sample sample ENC_CANDIDATES = some enc ∧
      chosenEncoding sample = enc := by
  have hlatin : latin1Strict sample = true := hbytes
  unfold chosenEncoding detect_encoding_by_sample ENC_CANDIDATES
  cases h1 : decodesStrict ("utf-8") sample
  · cases h2 : decodesStrict ("utf-8-sig") sample
    · cases h3 : decodesStrict ("cp1252") sample
      · have h4 : decodesStrict ("latin-1") sample = true := by
          simpa [decodesStrict] using hlatin
        exact ⟨"latin-1", by simp [List.find?, h1, h2, h3, h4]⟩
      · exact ⟨"cp1252", by simp [List.find?, h1, h2, h3]⟩
    · exact ⟨"utf-8-sig", by simp [List.find?, h1, h2]⟩
  · exact ⟨"utf-8", by simp [List.find?, h1]⟩

/-- Witness for C9 at a concrete sample containing a high byte. -/
theorem detect_encoding_total_witness :
    (([0, 255] : List Nat).all (fun byt => decide (byt < 256)) = true) ∧
    ∃ enc, detect_encoding_by_sample [0, 255] ENC_CANDIDATES = some enc ∧
      chosenEncoding [0, 255] = enc :=
  ⟨by decide, detect_encoding_total [0, 255] (by decide)⟩

/-- C7: a file whose stat size exceeds the configured ceiling is skipped —
`scan_file_content` returns `none` whatever the sample, the line contents
and the matcher, so such a file never contributes a `ContentHit`. -/
theorem oversize_file_never_hits (f : FileModel) (matcher : String → Bool)
    (maxExamples : Option Nat) (mb size : Nat)
    (hstat : f.statSize = some size) (hover : mb * 1024 * 1024 < size) :
    scan_file_content f matcher maxExamples (some mb) = none := by
  unfold scan_file_content
  rw [hstat]
  simp [hover]

/-- Witness for C7: a 50 MiB-plus-one-byte file under the default 50 MiB
ceiling, with content that would otherwise match. -/
theorem oversize_file_never_hits_witness :
    (FileModel.mk ("big.dat") (some 52428801) true [97] true
        (fun _ => ["match me"])).statSize = some 52428801 ∧
    50 * 1024 * 1024 < 52428801 ∧
    scan_file_content
      (FileModel.mk ("big.dat") (some 52428801) true [97] true
        (fun _ => ["match me"]))
      (fun _ => true) none (some 50) = none :=
  ⟨rfl, by decide,
    oversize_file_never_hits _ (fun _ => true) none 50 52428801 rfl (by decide)⟩

/-- The first component of the line loop: the match counter adds the
number of matching lines to its starting value, whatever the example
policy. -/
theorem scanLinesAux_fst (matcher : String → Bool) (me : Option Nat) :
    ∀ (ls : List String) (i m : Nat) (ex : List (Nat × String)),
    (scanLinesAux matcher me ls i m ex).1 = m + ls.countP matcher := by
  intro ls
  induction ls with
  | nil => intro i m ex; simp [scanLinesAux]
  | cons line rest ih =>
    intro i m ex
    by_cases hm : matcher line
    · rcases me with _ | ⟨_ | n⟩
      · by_cases hc : HARD_CAP_PER_FILE ≤ ex.length <;>
          simp [scanLinesAux, hm, hc, ih, List.countP_cons] <;> omega
      · simp [scanLinesAux, hm, ih, List.countP_cons]
        omega
      · by_cases hc : ex.length < n + 1 <;>
          simp [scanLinesAux, hm, hc, ih, List.countP_cons] <;> omega
    · simp [scanLinesAux, hm, ih, List.countP_cons]

/-- With `max_examples = 0` the line loop never captures an example. -/
theorem scanLinesAux_snd_zero (matcher : String → Bool) :
    ∀ (ls : List String) (i m : Nat) (ex : List (Nat × String)),
    (scanLinesAux matcher (some 0) ls i m ex).2 = ex := by
  intro ls
  induction ls with
  | nil => intro i m ex; simp [scanLinesAux]
  | cons line rest ih =>
    intro i m ex
    by_cases hm : matcher line <;> simp [scanLinesAux, hm, ih]

/-- Every snippet is at most 240 characters of line text plus one ellipsis
character. -/
theorem truncSnippet_length (line : String) : (truncSnippet line).length ≤ 241 := by
  have hrfl : truncSnippet line =
      (if 240 < (rstripCRLF line).data.length then
        (⟨(rstripCRLF line).data.take 240 ++ ['…']⟩ : String)
      else rstripCRLF line) := rfl
  rw [hrfl]
  split_ifs with h
  · show ((rstripCRLF line).data.take 240 ++ ['…']).length ≤ 241
    simp only [List.length_append, List.length_take, List.length_singleton]
    omega
  · show (rstripCRLF line).data.length ≤ 241
    omega

/-- Invariant of the line loop: line numbers in the accumulated examples
are positive, below the current line counter and strictly increasing,
snippets are at most 241 characters, and there are no more examples than
counted matches; all preserved to the end of the loop. -/
theorem scanLinesAux_examples_inv (matcher : String → Bool) (me : Option Nat) :
    ∀ (ls : List String) (i m : Nat) (ex : List (Nat × String)),
    (∀ p ∈ ex, 1 ≤ p.1 ∧ p.1 < i ∧ p.2.length ≤ 241) →
    ex.Pairwise (fun p q => p.1 < q.1) →
    ex.length ≤ m → 1 ≤ i →
    (∀ p ∈ (scanLinesAux matcher me ls i m ex).2,
        1 ≤ p.1 ∧ p.2.length ≤ 241) ∧
    (scanLinesAux matcher me ls i m ex).2.Pairwise (fun p q => p.1 < q.1) ∧
    (scanLinesAux matcher me ls i m ex).2.length ≤
      (scanLinesAux matcher me ls i m ex).1 := by
  intro ls
  induction ls with
  | nil =>
    intro i m ex hex hpw hlen _
    exact ⟨fun p hp => ⟨(hex p hp).1, (hex p hp).2.2⟩, hpw, hlen⟩
  | cons line rest ih =>
    intro i m ex hex hpw hlen hi
    have hmono : ∀ p ∈ ex, 1 ≤ p.1 ∧ p.1 < i + 1 ∧ p.2.length ≤ 241 :=
      fun p hp => ⟨(hex p hp).1, Nat.lt_succ_of_lt (hex p hp).2.1, (hex p hp).2.2⟩
    have hext : ∀ p ∈ ex ++ [(i, truncSnippet line)],
        1 ≤ p.1 ∧ p.1 < i + 1 ∧ p.2.length ≤ 241 := by
      intro p hp
      rcases List.mem_append.mp hp with hp | hp
      · exact hmono p hp
      · rw [List.mem_singleton] at hp
        subst hp
        exact ⟨hi, Nat.lt_succ_self i, truncSnippet_length line⟩
    have hpw' : (ex ++ [(i, truncSnippet line)]).Pairwise (fun p q => p.1 < q.1) := by
      refine List.pairwise_append.mpr ⟨hpw, List.pairwise_singleton _ _, ?_⟩
      intro p hp q hq
      rw [List.mem_singleton] at hq
      subst hq
      exact (hex p hp).2.1
    by_cases hm : matcher line
    · rcases me with _ | ⟨_ | n⟩
      · by_cases hc : HARD_CAP_PER_FILE ≤ ex.length
        · simp only [scanLinesAux, hm, if_pos hc, if_true, reduceIte]
          exact ih (i + 1) (m + 1) ex hmono hpw (by omega) (by omega)
        · simp only [scanLinesAux, hm, if_neg hc, if_true, reduceIte]
          exact ih (i + 1) (m + 1) (ex ++ [(i, truncSnippet line)]) hext hpw'
            (by simp; omega) (by omega)
      · simp only [scanLinesAux, hm, if_true, reduceIte]
        exact ih (i + 1) (m + 1) ex hmono hpw (by omega) (by omega)
      · by_cases hc : ex.length < n + 1
        · simp only [scanLinesAux, hm, if_pos hc, if_true, reduceIte]
          exact ih (i + 1) (m + 1) (ex ++ [(i, truncSnippet line)]) hext hpw'
            (by simp; omega) (by omega)
        · simp only [scanLinesAux, hm, if_neg hc, if_true, reduceIte]
          exact ih (i + 1) (m + 1) ex hmono hpw (by omega) (by omega)
    · simp only [scanLinesAux, hm, if_false, Bool.false_eq_true, reduceIte]
      exact ih (i + 1) m ex hmono hpw hlen (by omega)

/-- A `some` result of `scan_file_content` comes from the final branch of
the function: its fields are the outputs of the line loop started at line
1 with empty accumulators, and the counter is positive. -/
theorem scan_some_shape (f : FileModel) (matcher : String → Bool)
    (me ms : Option Nat) (hit : ContentHit)
    (h : scan_file_content f matcher me ms = some hit) :
    hit.path = f.path ∧
    hit.matches_count =
      (scanLinesAux matcher me (f.lines (chosenEncoding f.sampleBytes)) 1 0 []).1 ∧
    hit.examples =
      (scanLinesAux matcher me (f.lines (chosenEncoding f.sampleBytes)) 1 0 []).2 ∧
    0 < hit.matches_count := by
  unfold scan_file_content at h
  rcases hstat : f.statSize with _ | size <;> rw [hstat] at h <;> dsimp only at h
  · exact absurd h (by simp)
  · split_ifs at h with h1 h2 h3 h4 h5
    rw [Option.some_inj] at h
    subst h
    exact ⟨rfl, rfl, rfl, by assumption⟩

/-- C2: a `ContentHit` returned by `scan_file_content` always carries
`matches_count` equal to the number of matching lines, hence strictly
positive (so a hit with `matches_count = 0` is never returned); and
whenever the scan reaches the line loop, the result is absent exactly when
the number of matching lines is zero. -/
theorem scan_hit_iff_matching_lines (f : FileModel) (matcher : String → Bool)
    (me ms : Option Nat) :
    (∀ hit, scan_file_content f matcher me ms = some hit →
        hit.matches_count =
          matchingLineCount matcher (f.lines (chosenEncoding f.sampleBytes)) ∧
        0 < hit.matches_count) ∧
    (reachesLineLoop f ms →
      (scan_file_content f matcher me ms = none ↔
        matchingLineCount matcher (f.lines (chosenEncoding f.sampleBytes)) = 0)) := by
  constructor
  · intro hit h
    obtain ⟨_, hm, _, hpos⟩ := scan_some_shape f matcher me ms hit h
    refine ⟨?_, hpos⟩
    rw [hm, scanLinesAux_fst]
    simp [matchingLineCount]
  · rintro ⟨⟨size, hstat, hsize⟩, hopen, hbin, hread⟩
    unfold scan_file_content
    rw [hstat]
    rcases ms with _ | mb
    · dsimp only
      simp only [hopen, hbin, hread, Bool.not_true, Bool.false_eq_true, if_false, reduceIte]
      rw [scanLinesAux_fst]
      simp only [matchingLineCount, Nat.zero_add]
      split_ifs with hp
      · exact ⟨fun hc => absurd hc (by simp), fun hc => absurd hp (by simp [hc])⟩
      · exact iff_of_true rfl (by omega)
    · have hle : decide (mb * 1024 * 1024 < size) = false :=
        decide_eq_false (Nat.not_lt.mpr (hsize mb rfl))
      dsimp only
      simp only [hle, hopen, hbin, hread, Bool.not_true, Bool.false_eq_true, if_false, reduceIte]
      rw [scanLinesAux_fst]
      simp only [matchingLineCount, Nat.zero_add]
      split_ifs with hp
      · exact ⟨fun hc => absurd hc (by simp), fun hc => absurd hp (by simp [hc])⟩
      · exact iff_of_true rfl (by omega)

/-- Witness for C2: at a file whose single line does not match, the scan
reaches the line loop and returns absent; at a file with two matching
lines, the returned hit counts exactly the matching lines. -/
theorem scan_hit_iff_matching_lines_witness :
    (reachesLineLoop fixtureNoMatch none ∧
      (scan_file_content fixtureNoMatch fixtureMatcherA none none = none ↔
        matchingLineCount fixtureMatcherA
          (fixtureNoMatch.lines (chosenEncoding fixtureNoMatch.sampleBytes)) = 0)) ∧
    ((ContentHit.mk ("tm.dat") 2 [(1, "a"), (3, "a")]).matches_count =
        matchingLineCount fixtureMatcherA
          (fixtureTwoMatch.lines (chosenEncoding fixtureTwoMatch.sampleBytes)) ∧
      0 < (ContentHit.mk ("tm.dat") 2 [(1, "a"), (3, "a")]).matches_count) := by
  have hreach : reachesLineLoop fixtureNoMatch none :=
    ⟨⟨1, rfl, fun mb hmb => nomatch hmb⟩, rfl, by decide, rfl⟩
  have hsome : scan_file_content fixtureTwoMatch fixtureMatcherA none none =
      some (ContentHit.mk ("tm.dat") 2 [(1, "a"), (3, "a")]) := by decide
  exact ⟨⟨hreach,
      (scan_hit_iff_matching_lines fixtureNoMatch fixtureMatcherA none none).2 hreach⟩,
    (scan_hit_iff_matching_lines fixtureTwoMatch fixtureMatcherA none none).1 _ hsome⟩

/-- C8: with `max_examples = 0` a returned hit has an empty example list
while `matches_count` still equals the number of matching lines. -/
theorem zero_example_cap_counts_matches (f : FileModel) (matcher : String → Bool)
    (ms : Option Nat) (hit : ContentHit)
    (h : scan_file_content f matcher (some 0) ms = some hit) :
    hit.examples = [] ∧
    hit.matches_count =
      matchingLineCount matcher (f.lines (chosenEncoding f.sampleBytes)) ∧
    0 < hit.matches_count := by
  obtain ⟨_, hm, hex, hpos⟩ := scan_some_shape f matcher (some 0) ms hit h
  refine ⟨?_, ?_, hpos⟩
  · rw [hex, scanLinesAux_snd_zero]
  · rw [hm, scanLinesAux_fst]
    simp [matchingLineCount]

/-- Witness for C8: two matching lines are counted, none captured. -/
theorem zero_example_cap_counts_matches_witness :
    scan_file_content fixtureTwoMatch fixtureMatcherA (some 0) none =
      some (ContentHit.mk ("tm.dat") 2 []) ∧
    (ContentHit.mk ("tm.dat") 2 []).examples = [] ∧
    (ContentHit.mk ("tm.dat") 2 []).matches_count =
      matchingLineCount fixtureMatcherA
        (fixtureTwoMatch.lines (chosenEncoding fixtureTwoMatch.sampleBytes)) ∧
    0 < (ContentHit.mk ("tm.dat") 2 []).matches_count := by
  have h : scan_file_content fixtureTwoMatch fixtureMatcherA (some 0) none =
      some (ContentHit.mk ("tm.dat") 2 []) := by decide
  exact ⟨h, zero_example_cap_counts_matches fixtureTwoMatch fixtureMatcherA none _ h⟩

/-- C10: every returned `ContentHit` has at most `matches_count` examples,
its captured line numbers are positive (1-based) and strictly increasing
in list order, and every snippet is at most 241 characters (240 of line
text plus one ellipsis character). -/
theorem content_hit_examples_wellformed (f : FileModel) (matcher : String → Bool)
    (me ms : Option Nat) (hit : ContentHit)
    (h : scan_file_content f matcher me ms = some hit) :
    hit.examples.length ≤ hit.matches_count ∧
    hit.examples.Pairwise (fun p q => p.1 < q.1) ∧
    ∀ p ∈ hit.examples, 1 ≤ p.1 ∧ p.2.length ≤ 241 := by
  obtain ⟨_, hm, hex, _⟩ := scan_some_shape f matcher me ms hit h
  have hinv := scanLinesAux_examples_inv matcher me
    (f.lines (chosenEncoding f.sampleBytes)) 1 0 []
    (by simp) (by simp) (by simp) (by omega)
  rw [hm, hex]
  exact ⟨hinv.2.2, hinv.2.1, hinv.1⟩

/-- Witness for C10 on a concrete two-match file. -/
theorem content_hit_examples_wellformed_witness :
    scan_file_content fixtureTwoMatch fixtureMatcherA none none =
      some (ContentHit.mk ("tm.dat") 2 [(1, "a"), (3, "a")]) ∧
    (ContentHit.mk ("tm.dat") 2 [(1, "a"), (3, "a")]).examples.length ≤
      (ContentHit.mk ("tm.dat") 2 [(1, "a"), (3, "a")]).matches_count ∧
    (ContentHit.mk ("tm.dat") 2 [(1, "a"), (3, "a")]).examples.Pairwise
      (fun p q => p.1 < q.1) ∧
    ∀ p ∈ (ContentHit.mk ("tm.dat") 2 [(1, "a"), (3, "a")]).examples,
      1 ≤ p.1 ∧ p.2.length ≤ 241 := by
  have h : scan_file_content fixtureTwoMatch fixtureMatcherA none none =
      some (ContentHit.mk ("tm.dat") 2 [(1, "a"), (3, "a")]) := by decide
  exact ⟨h, content_hit_examples_wellformed fixtureTwoMatch fixtureMatcherA none none _ h⟩

/-- Any entry of `walkSubdirs` comes from walking some kept (non-pruned)
subdirectory of the listing. -/
theorem walkSubdirs_subset (ignore path : List String) :
    ∀ (cs : List FSTree) (e : List String × Bool), e ∈ walkSubdirs ignore path cs →
      ∃ nm cs', FSTree.dir nm cs' ∈ cs ∧ ignore.contains nm = false ∧
        e ∈ walkDirNode ignore (path ++ [nm]) cs' := by
  intro cs
  induction cs with
  | nil => intro e he; simp [walkSubdirs] at he
  | cons c rest ih =>
    intro e he
    cases c with
    | file nm =>
      rw [walkSubdirs] at he
      obtain ⟨nm', cs', hmem, hig, he'⟩ := ih e he
      exact ⟨nm', cs', List.mem_cons_of_mem _ hmem, hig, he'⟩
    | dir nm cs' =>
      rw [walkSubdirs] at he
      rcases List.mem_append.mp he with he | he
      · split_ifs at he with hig
        · simp at he
        · exact ⟨nm, cs', List.mem_cons_self _ _, Bool.not_eq_true _ ▸ (by simpa using hig),
            he⟩
      · obtain ⟨nm', cs'', hmem, hig, he'⟩ := ih e he
        exact ⟨nm', cs'', List.mem_cons_of_mem _ hmem, hig, he'⟩

/-- Shape of every entry the recursive walk yields under `path`: a strict
extension of `path` whose intermediate segments all avoid the ignore set,
and whose final segment also avoids it when the entry is a directory. -/
theorem walkDirNode_shape (ignore : List String) :
    ∀ (n : Nat) (cs : List FSTree), sizeOf cs ≤ n → ∀ (path : List String),
      ∀ e ∈ walkDirNode ignore path cs,
      ∃ rest, e.1 = path ++ rest ∧ rest ≠ [] ∧
        (∀ s ∈ rest.dropLast, ignore.contains s = false) ∧
        (e.2 = true → ∀ s ∈ rest, ignore.contains s = false) := by
  intro n
  induction n with
  | zero =>
    intro cs hsz
    exact absurd hsz (by cases cs <;> simp)
  | succ n ih =>
    intro cs hsz path e he
    rw [walkDirNode] at he
    rcases List.mem_append.mp he with he | he
    · rcases List.mem_append.mp he with he | he
      · obtain ⟨d, hd, rfl⟩ := List.mem_map.mp he
        have hkept : (!ignore.contains d) = true := (List.mem_filter.mp hd).2
        refine ⟨[d], rfl, by simp, by simp, ?_⟩
        intro _ s hs
        rw [List.mem_singleton] at hs
        subst hs
        simpa using hkept
      · obtain ⟨fn, _, rfl⟩ := List.mem_map.mp he
        exact ⟨[fn], rfl, by simp, by simp, fun h => absurd h (by simp)⟩
    · obtain ⟨nm, cs', hmem, hig, he'⟩ := walkSubdirs_subset ignore path cs e he
      have hlt : sizeOf cs' ≤ n := by
        have h1 := List.sizeOf_lt_of_mem hmem
        have h2 : sizeOf (FSTree.dir nm cs') = 1 + sizeOf nm + sizeOf cs' := by
          simp
        omega
      obtain ⟨rest', hre, hne, hdl, hdir⟩ := ih cs' hlt (path ++ [nm]) e he'
      refine ⟨nm :: rest', by rw [hre]; simp, by simp, ?_, ?_⟩
      · intro s hs
        rw [List.dropLast_cons_of_ne_nil hne] at hs
        rcases List.mem_cons.mp hs with rfl | hs
        · exact hig
        · exact hdl s hs
      · intro hd2 s hs
        rcases List.mem_cons.mp hs with rfl | hs
        · exact hig
        · exact hdir hd2 s hs

/-- The node-level names yielded for one directory listing (kept dir names
then file names) are duplicate-free and mutually disjoint when the sibling
names are distinct. -/
theorem keptDirNames_sublist (ignore : List String) (cs : List FSTree) :
    List.Sublist (keptDirNames ignore cs) (((cs.filter FSTree.isDirB).map FSTree.fsname)) :=
  List.filter_sublist _

/-- Assembling duplicate-freedom for the entries of one directory node,
given it for the subdirectory walks. -/
theorem walkDirNode_nodup_of (ignore path : List String) (cs : List FSTree)
    (hnames : (cs.map FSTree.fsname).Nodup)
    (hsubs : ((walkSubdirs ignore path cs).map Prod.fst).Nodup) :
    ((walkDirNode ignore path cs).map Prod.fst).Nodup := by
  rw [walkDirNode]
  have hdirnames : ((cs.filter FSTree.isDirB).map FSTree.fsname).Nodup :=
    hnames.sublist ((List.filter_sublist cs).map FSTree.fsname)
  have hfilenames : (fileNames cs).Nodup :=
    hnames.sublist ((List.filter_sublist cs).map FSTree.fsname)
  have hkept : (keptDirNames ignore cs).Nodup :=
    hdirnames.sublist (List.filter_sublist _)
  have hinj : Function.Injective (fun d : String => path ++ [d]) := by
    intro a b h
    simpa using List.append_cancel_left h
  -- names of dirs and files are disjoint
  have hperm : List.Perm ((cs.filter FSTree.isDirB) ++
      (cs.filter (fun c => !FSTree.isDirB c))) cs :=
    List.filter_append_perm _ cs
  have hperm2 : List.Perm (((cs.filter FSTree.isDirB) ++
      (cs.filter (fun c => !FSTree.isDirB c))).map FSTree.fsname) (cs.map FSTree.fsname) :=
    hperm.map _
  have hnodup2 : (((cs.filter FSTree.isDirB).map FSTree.fsname) ++
      ((cs.filter (fun c => !FSTree.isDirB c)).map FSTree.fsname)).Nodup := by
    rw [← List.map_append]
    exact (hperm2.nodup_iff).mpr hnames
  have hdisj : ((cs.filter FSTree.isDirB).map FSTree.fsname).Disjoint (fileNames cs) :=
    (List.nodup_append.mp hnodup2).2.2
  rw [List.map_append, List.map_append, List.nodup_append]
  refine ⟨?_, ?_, ?_⟩
  · -- node-level entries: paths path ++ [name], names distinct
    rw [List.nodup_append]
    refine ⟨?_, ?_, ?_⟩
    · rw [List.map_map]
      exact hkept.map hinj
    · rw [List.map_map]
      exact hfilenames.map hinj
    · intro p hp hq
      rw [List.map_map] at hp hq
      obtain ⟨d, hd, rfl⟩ := List.mem_map.mp hp
      obtain ⟨fn, hf, heq⟩ := List.mem_map.mp hq
      have : fn = d := by simpa using heq
      subst this
      exact hdisj ((List.filter_sublist _).subset hd) hf
  · exact hsubs
  · -- node-level entries (length |path|+1) vs subtree entries (longer)
    intro p hp hq
    obtain ⟨e, hef, rfl⟩ := List.mem_map.mp hq
    obtain ⟨nm, cs', hmem, hig, he'⟩ := walkSubdirs_subset ignore path cs e hef
    obtain ⟨rest', hre, hne, _, _⟩ := walkDirNode_shape ignore (sizeOf cs') cs'
      (Nat.le_refl _) (path ++ [nm]) e he'
    have hlen2 : path.length + 2 ≤ e.1.length := by
      rw [hre]
      have : 1 ≤ rest'.length := by
        cases rest' with
        | nil => exact absurd rfl hne
        | cons _ _ => simp
      simp [List.length_append]
      omega
    rcases List.mem_append.mp hp with hp | hp
    · rw [List.map_map] at hp
      obtain ⟨d, _, hpe⟩ := List.mem_map.mp hp
      have : e.1.length = path.length + 1 := by
        rw [← hpe]
        simp
      omega
    · rw [List.map_map] at hp
      obtain ⟨fn, _, hpe⟩ := List.mem_map.mp hp
      have : e.1.length = path.length + 1 := by
        rw [← hpe]
        simp
      omega

/-- Duplicate-freedom of the paths yielded by the subdirectory walks, for
well-formed listings with distinct sibling names. -/
theorem walkSubdirs_nodup (ignore : List String) :
    ∀ (n : Nat) (cs : List FSTree), sizeOf cs ≤ n →
      wellFormedForest cs = true → (cs.map FSTree.fsname).Nodup →
      ∀ path, ((walkSubdirs ignore path cs).map Prod.fst).Nodup := by
  intro n
  induction n with
  | zero =>
    intro cs hsz
    exact absurd hsz (by cases cs <;> simp)
  | succ n ih =>
    intro cs hsz hwf hnames path
    cases cs with
    | nil => simp [walkSubdirs]
    | cons c rest =>
      rw [wellFormedForest] at hwf
      obtain ⟨hc, hrest⟩ := Bool.and_eq_true_iff.mp hwf
      have hcsz : sizeOf (c :: rest) = 1 + sizeOf c + sizeOf rest := by simp
      have hcpos : 1 ≤ sizeOf c := by
        cases c with
        | file nm => simp
        | dir nm cs' =>
          simp
          omega
      have hszrest : sizeOf rest ≤ n := by omega
      have hnrest : (rest.map FSTree.fsname).Nodup :=
        (List.nodup_cons.mp (by simpa using hnames)).2
      cases c with
      | file nm =>
        rw [walkSubdirs]
        exact ih rest hszrest hrest hnrest path
      | dir nm cs' =>
        rw [walkSubdirs]
        by_cases hig : ignore.contains nm = true
        · rw [if_pos hig]
          rw [List.nil_append]
          exact ih rest hszrest hrest hnrest path
        · rw [if_neg hig]
          rw [List.map_append, List.nodup_append]
          rw [wellFormedTree] at hc
          obtain ⟨hcn, hcf⟩ := Bool.and_eq_true_iff.mp hc
          have hcn' : (cs'.map FSTree.fsname).Nodup := of_decide_eq_true hcn
          have hdsz : sizeOf (FSTree.dir nm cs') = 1 + sizeOf nm + sizeOf cs' := by simp
          have hsz' : sizeOf cs' ≤ n := by omega
          refine ⟨?_, ih rest hszrest hrest hnrest path, ?_⟩
          · exact walkDirNode_nodup_of ignore (path ++ [nm]) cs' hcn'
              (ih cs' hsz' hcf hcn' (path ++ [nm]))
          · intro p hp hq
            obtain ⟨e, he, rfl⟩ := List.mem_map.mp hp
            obtain ⟨e2, he2, hpe⟩ := List.mem_map.mp hq
            obtain ⟨rest1, hre1, hne1, -, -⟩ := walkDirNode_shape ignore (sizeOf cs')
              cs' (Nat.le_refl _) (path ++ [nm]) e he
            obtain ⟨nm2, cs2, hmem2, hig2, he2'⟩ := walkSubdirs_subset ignore path rest e2 he2
            obtain ⟨rest2, hre2, hne2, -, -⟩ := walkDirNode_shape ignore (sizeOf cs2)
              cs2 (Nat.le_refl _) (path ++ [nm2]) e2 he2'
            have heq : path ++ nm :: rest1 = path ++ nm2 :: rest2 := by
              calc path ++ nm :: rest1 = e.1 := by rw [hre1]; simp
                _ = e2.1 := hpe.symm
                _ = path ++ nm2 :: rest2 := by rw [hre2]; simp
            have hnmeq : nm = nm2 := (List.cons.injEq _ _ _ _ ▸
              List.append_cancel_left heq).1
            have hnm2 : nm2 ∈ rest.map FSTree.fsname := List.mem_map_of_mem _ hmem2
            have hnotin : FSTree.fsname (FSTree.dir nm cs') ∉ rest.map FSTree.fsname :=
              (List.nodup_cons.mp (by simpa using hnames)).1
            exact hnotin (by simpa [FSTree.fsname, hnmeq] using hnm2)

/-- C6: for every static, well-formed directory tree, the recursive
enumeration with an ignore set never yields a path lying inside a pruned
ignore-directory (ancestor segments avoid the ignore set, and a yielded
directory's own name avoids it too — pruned directories are neither
yielded nor descended into), never yields the same path twice, and when
the root is a file it yields exactly that one path flagged non-directory. -/
theorem enumerator_pruning_and_uniqueness (t : FSTree) (ignore : List String)
    (hwf : wellFormedTree t = true) :
    (∀ e ∈ iter_dirs_files t true ignore,
        (∀ s ∈ e.1.dropLast, ignore.contains s = false) ∧
        (e.2 = true → ∀ s ∈ e.1, ignore.contains s = false)) ∧
    ((iter_dirs_files t true ignore).map Prod.fst).Nodup ∧
    (∀ (nm : String) (r : Bool), iter_dirs_files (FSTree.file nm) r ignore =
      [([], false)]) := by
  cases t with
  | file nm =>
    refine ⟨?_, by simp [iter_dirs_files], fun _ _ => rfl⟩
    intro e he
    simp only [iter_dirs_files, List.mem_singleton] at he
    subst he
    exact ⟨by simp, by simp⟩
  | dir nm cs =>
    rw [wellFormedTree] at hwf
    obtain ⟨hn, hf⟩ := Bool.and_eq_true_iff.mp hwf
    have hn' : (cs.map FSTree.fsname).Nodup := of_decide_eq_true hn
    have hiter : iter_dirs_files (FSTree.dir nm cs) true ignore =
        walkDirNode ignore [] cs := by
      simp [iter_dirs_files]
    refine ⟨?_, ?_, fun _ _ => rfl⟩
    · intro e he
      rw [hiter] at he
      obtain ⟨rest, hre, hne, hdl, hdir⟩ := walkDirNode_shape ignore (sizeOf cs) cs
        (Nat.le_refl _) [] e he
      rw [List.nil_append] at hre
      rw [hre]
      exact ⟨hdl, hdir⟩
    · rw [hiter]
      exact walkDirNode_nodup_of ignore [] cs hn'
        (walkSubdirs_nodup ignore (sizeOf cs) cs (Nat.le_refl _) hf hn' [])

/-- Witness for C6 on a concrete tree containing a prunable directory and
a file sharing the prunable name. -/
theorem enumerator_pruning_and_uniqueness_witness :
    wellFormedTree fixtureTree = true ∧
    ((iter_dirs_files fixtureTree true ([".git"])).map Prod.fst).Nodup ∧
    (∀ e ∈ iter_dirs_files fixtureTree true ([".git"]),
        (∀ s ∈ e.1.dropLast, ([".git"] : List String).contains s = false) ∧
        (e.2 = true → ∀ s ∈ e.1, ([".git"] : List String).contains s = false)) := by
  have h := enumerator_pruning_and_uniqueness fixtureTree [".git"] (by decide)
  exact ⟨by decide, h.2.1, h.1⟩

/-- The position lists of `b2j` are strictly ascending. -/
theorem b2j_sorted (b : List Char) (c : Char) :
    List.Pairwise (· < ·) (b2j b c) := by
  unfold b2j
  split_ifs
  · exact List.Pairwise.nil
  · exact (List.pairwise_lt_range _).filter _

/-- Membership in a `b2j` position list. -/
theorem mem_b2j (b : List Char) (c : Char) (j : Nat) :
    j ∈ b2j b c ↔ isbjunk b c = false ∧ j < b.length ∧ chGet b j = c := by
  unfold b2j
  split_ifs with h
  · simp [h]
  · have h' : isbjunk b c = false := by simpa using h
    simp [List.mem_filter, List.mem_range, h']

/-- A run ending at `(i, j)` with `j ≤ i` is no longer than the diagonal
run ending at `(j, j)`: both demand non-junk characters at the same
`j`-side positions, and the diagonal comparison is trivially true. -/
theorem nrun_le_diag_left (s : List Char) (lo : Nat) :
    ∀ j, ∀ i, j ≤ i → nrun s lo i j ≤ nrun s lo j j := by
  intro j
  induction j using Nat.strong_induction_on with
  | _ j ih =>
    intro i hji
    by_cases hc : chGet s i = chGet s j ∧ isbjunk s (chGet s j) = false
    · have hcj : chGet s j = chGet s j ∧ isbjunk s (chGet s j) = false := ⟨rfl, hc.2⟩
      by_cases hb : lo < i ∧ lo < j
      · have hb' : lo < j ∧ lo < j := ⟨hb.2, hb.2⟩
        rw [nrun, if_pos hc, dif_pos hb]
        conv_rhs => rw [nrun]
        rw [if_pos hcj, dif_pos hb']
        have hih := ih (j - 1) (by omega) (i - 1) (by omega)
        omega
      · have hnj : ¬ lo < j := fun hj => hb ⟨Nat.lt_of_lt_of_le hj hji, hj⟩
        rw [nrun, if_pos hc, dif_neg hb, nrun, if_pos hcj,
          dif_neg (fun hh => hnj hh.1)]
    · rw [nrun, if_neg hc]
      exact Nat.zero_le _

/-- A run ending at `(i, j)` with `i ≤ j` is no longer than the diagonal
run ending at `(i, i)`: character equality transfers the junk status. -/
theorem nrun_le_diag_right (s : List Char) (lo : Nat) :
    ∀ i, ∀ j, i ≤ j → nrun s lo i j ≤ nrun s lo i i := by
  intro i
  induction i using Nat.strong_induction_on with
  | _ i ih =>
    intro j hij
    by_cases hc : chGet s i = chGet s j ∧ isbjunk s (chGet s j) = false
    · have hci : chGet s i = chGet s i ∧ isbjunk s (chGet s i) = false :=
        ⟨rfl, by rw [hc.1]; exact hc.2⟩
      by_cases hb : lo < i ∧ lo < j
      · have hb' : lo < i ∧ lo < i := ⟨hb.1, hb.1⟩
        rw [nrun, if_pos hc, dif_pos hb]
        conv_rhs => rw [nrun]
        rw [if_pos hci, dif_pos hb']
        have hih := ih (i - 1) (by omega) (j - 1) (by omega)
        omega
      · have hni : ¬ lo < i := fun hi2 => hb ⟨hi2, Nat.lt_of_lt_of_le hi2 hij⟩
        rw [nrun, if_pos hc, dif_neg hb, nrun, if_pos hci,
          dif_neg (fun hh => hni hh.1)]
    · rw [nrun, if_neg hc]
      exact Nat.zero_le _

/-- A diagonal run over a non-junk character has length at least 1. -/
theorem nrun_diag_pos (s : List Char) (lo i : Nat)
    (h : isbjunk s (chGet s i) = false) : 1 ≤ nrun s lo i i := by
  rw [nrun, if_pos ⟨rfl, h⟩]
  split <;> omega

/-- A diagonal run over a junk character is empty. -/
theorem nrun_diag_junk (s : List Char) (lo i : Nat)
    (h : isbjunk s (chGet s i) = true) : nrun s lo i i = 0 := by
  rw [nrun, if_neg]
  intro hc
  rw [hc.2] at h
  exact Bool.noConfusion h

/-- Positions not recorded in `b2j` (character mismatch or junk) carry an
empty run. -/
theorem nrun_eq_zero_of_not_mem (s : List Char) (lo i j : Nat)
    (hlen : j < s.length) (hnm : j ∉ b2j s (chGet s i)) : nrun s lo i j = 0 := by
  by_cases hc : chGet s i = chGet s j ∧ isbjunk s (chGet s j) = false
  · exact absurd ((mem_b2j s (chGet s i) j).mpr
      ⟨by rw [hc.1]; exact hc.2, hlen, hc.1.symm⟩) hnm
  · rw [nrun, if_neg hc]

/-- Bounds invariant of the inner loop of `find_longest_match`: run values
never exceed the room above `alo`/`blo`, and the best triple stays inside
the region. -/
theorem flmInner_bounds (blo bhi i alo ahi : Nat) (hialo : alo ≤ i) (hiahi : i < ahi)
    (j2len : Nat → Nat)
    (hj2 : ∀ j, j2len j ≤ i - alo ∧ j2len j ≤ j + 1 - blo) :
    ∀ (L : List Nat) (newj2len : Nat → Nat) (best : Nat × Nat × Nat),
      (∀ j, newj2len j ≤ i + 1 - alo ∧ newj2len j ≤ j + 1 - blo) →
      alo ≤ best.1 → blo ≤ best.2.1 →
      best.1 + best.2.2 ≤ ahi → best.2.1 + best.2.2 ≤ bhi →
      (∀ j, (flmInner j2len blo bhi i L newj2len best).1 j ≤ i + 1 - alo ∧
            (flmInner j2len blo bhi i L newj2len best).1 j ≤ j + 1 - blo) ∧
      alo ≤ (flmInner j2len blo bhi i L newj2len best).2.1 ∧
      blo ≤ (flmInner j2len blo bhi i L newj2len best).2.2.1 ∧
      (flmInner j2len blo bhi i L newj2len best).2.1 +
        (flmInner j2len blo bhi i L newj2len best).2.2.2 ≤ ahi ∧
      (flmInner j2len blo bhi i L newj2len best).2.2.1 +
        (flmInner j2len blo bhi i L newj2len best).2.2.2 ≤ bhi := by
  intro L
  induction L with
  | nil =>
    intro newj2len best hnew h1 h2 h3 h4
    exact ⟨hnew, h1, h2, h3, h4⟩
  | cons j rest ih =>
    intro newj2len best hnew h1 h2 h3 h4
    rw [flmInner]
    by_cases hb1 : j < blo
    · rw [if_pos hb1]
      exact ih newj2len best hnew h1 h2 h3 h4
    · rw [if_neg hb1]
      by_cases hb2 : bhi ≤ j
      · rw [if_pos hb2]
        exact ⟨hnew, h1, h2, h3, h4⟩
      · rw [if_neg hb2]
        dsimp only
        have hblo : blo ≤ j := Nat.not_lt.mp hb1
        have hbhi : j < bhi := Nat.not_le.mp hb2
        have hk1 : (if j = 0 then 0 else j2len (j - 1)) + 1 ≤ i + 1 - alo := by
          split_ifs with hj0
          · omega
          · have := (hj2 (j - 1)).1
            omega
        have hk2 : (if j = 0 then 0 else j2len (j - 1)) + 1 ≤ j + 1 - blo := by
          split_ifs with hj0
          · omega
          · have := (hj2 (j - 1)).2
            omega
        apply ih
        · intro x
          by_cases hx : x = j
          · rw [if_pos hx]
            exact ⟨hk1, hx ▸ hk2⟩
          · rw [if_neg hx]
            exact hnew x
        · by_cases hupd : best.2.2 < (if j = 0 then 0 else j2len (j - 1)) + 1
          · rw [if_pos hupd]
            dsimp only
            omega
          · rw [if_neg hupd]
            exact h1
        · by_cases hupd : best.2.2 < (if j = 0 then 0 else j2len (j - 1)) + 1
          · rw [if_pos hupd]
            dsimp only
            omega
          · rw [if_neg hupd]
            exact h2
        · by_cases hupd : best.2.2 < (if j = 0 then 0 else j2len (j - 1)) + 1
          · rw [if_pos hupd]
            dsimp only
            omega
          · rw [if_neg hupd]
            exact h3
        · by_cases hupd : best.2.2 < (if j = 0 then 0 else j2len (j - 1)) + 1
          · rw [if_pos hupd]
            dsimp only
            omega
          · rw [if_neg hupd]
            exact h4

/-- Bounds invariant of the outer loop of `find_longest_match`. -/
theorem flmOuter_bounds (a b : List Char) (blo bhi alo ahi : Nat) :
    ∀ (cnt i : Nat), alo ≤ i → i + cnt ≤ ahi →
      ∀ (j2len : Nat → Nat) (best : Nat × Nat × Nat),
      (∀ j, j2len j ≤ i - alo ∧ j2len j ≤ j + 1 - blo) →
      alo ≤ best.1 → blo ≤ best.2.1 →
      best.1 + best.2.2 ≤ ahi → best.2.1 + best.2.2 ≤ bhi →
      alo ≤ (flmOuter a b blo bhi i cnt j2len best).1 ∧
      blo ≤ (flmOuter a b blo bhi i cnt j2len best).2.1 ∧
      (flmOuter a b blo bhi i cnt j2len best).1 +
        (flmOuter a b blo bhi i cnt j2len best).2.2 ≤ ahi ∧
      (flmOuter a b blo bhi i cnt j2len best).2.1 +
        (flmOuter a b blo bhi i cnt j2len best).2.2 ≤ bhi := by
  intro cnt
  induction cnt with
  | zero =>
    intro i _ _ j2len best _ h1 h2 h3 h4
    exact ⟨h1, h2, h3, h4⟩
  | succ cnt ih =>
    intro i hialo hicnt j2len best hj2 h1 h2 h3 h4
    rw [flmOuter]
    have hin := flmInner_bounds blo bhi i alo ahi hialo (by omega) j2len hj2
      (b2j b (chGet a i)) (fun _ => 0) best
      (by intro j; exact ⟨Nat.zero_le _, Nat.zero_le _⟩) h1 h2 h3 h4
    exact ih (i + 1) (by omega) (by omega) _ _
      (by intro j; have := (hin.1 j); omega) hin.2.1 hin.2.2.1 hin.2.2.2.1 hin.2.2.2.2

/-- The leftward extension loops keep the block inside the region
(stated for `extNonjunkLeft`). -/
theorem extNonjunkLeft_bounds (a b : List Char) (alo blo ahi bhi : Nat) :
    ∀ (besti bestj bestsize : Nat),
      alo ≤ besti → blo ≤ bestj →
      besti + bestsize ≤ ahi → bestj + bestsize ≤ bhi →
      alo ≤ (extNonjunkLeft a b alo blo besti bestj bestsize).1 ∧
      blo ≤ (extNonjunkLeft a b alo blo besti bestj bestsize).2.1 ∧
      (extNonjunkLeft a b alo blo besti bestj bestsize).1 +
        (extNonjunkLeft a b alo blo besti bestj bestsize).2.2 ≤ ahi ∧
      (extNonjunkLeft a b alo blo besti bestj bestsize).2.1 +
        (extNonjunkLeft a b alo blo besti bestj bestsize).2.2 ≤ bhi := by
  intro besti
  induction besti with
  | zero =>
    intro bestj bestsize h1 h2 h3 h4
    exact ⟨h1, h2, h3, h4⟩
  | succ besti ih =>
    intro bestj bestsize h1 h2 h3 h4
    rw [extNonjunkLeft]
    split_ifs with hc
    · exact ih (bestj - 1) (bestsize + 1) (by omega) (by omega) (by omega) (by omega)
    · exact ⟨h1, h2, h3, h4⟩

/-- Same statement for `extJunkLeft`. -/
theorem extJunkLeft_bounds (a b : List Char) (alo blo ahi bhi : Nat) :
    ∀ (besti bestj bestsize : Nat),
      alo ≤ besti → blo ≤ bestj →
      besti + bestsize ≤ ahi → bestj + bestsize ≤ bhi →
      alo ≤ (extJunkLeft a b alo blo besti bestj bestsize).1 ∧
      blo ≤ (extJunkLeft a b alo blo besti bestj bestsize).2.1 ∧
      (extJunkLeft a b alo blo besti bestj bestsize).1 +
        (extJunkLeft a b alo blo besti bestj bestsize).2.2 ≤ ahi ∧
      (extJunkLeft a b alo blo besti bestj bestsize).2.1 +
        (extJunkLeft a b alo blo besti bestj bestsize).2.2 ≤ bhi := by
  intro besti
  induction besti with
  | zero =>
    intro bestj bestsize h1 h2 h3 h4
    exact ⟨h1, h2, h3, h4⟩
  | succ besti ih =>
    intro bestj bestsize h1 h2 h3 h4
    rw [extJunkLeft]
    split_ifs with hc
    · exact ih (bestj - 1) (bestsize + 1) (by omega) (by omega) (by omega) (by omega)
    · exact ⟨h1, h2, h3, h4⟩

/-- The rightward extension loops keep the block inside the region. -/
theorem extRightAux_bounds (a b : List Char) (ahi bhi : Nat) (junkFlag : Bool)
    (alo blo besti bestj : Nat) (h1 : alo ≤ besti) (h2 : blo ≤ bestj) :
    ∀ (rem bestsize : Nat),
      besti + bestsize ≤ ahi → bestj + bestsize ≤ bhi →
      alo ≤ (extRightAux a b ahi bhi junkFlag besti bestj rem bestsize).1 ∧
      blo ≤ (extRightAux a b ahi bhi junkFlag besti bestj rem bestsize).2.1 ∧
      (extRightAux a b ahi bhi junkFlag besti bestj rem bestsize).1 +
        (extRightAux a b ahi bhi junkFlag besti bestj rem bestsize).2.2 ≤ ahi ∧
      (extRightAux a b ahi bhi junkFlag besti bestj rem bestsize).2.1 +
        (extRightAux a b ahi bhi junkFlag besti bestj rem bestsize).2.2 ≤ bhi := by
  intro rem
  induction rem with
  | zero =>
    intro bestsize h3 h4
    exact ⟨h1, h2, h3, h4⟩
  | succ rem ih =>
    intro bestsize h3 h4
    rw [extRightAux]
    split_ifs with hc
    · exact ih (bestsize + 1) (by omega) (by omega)
    · exact ⟨h1, h2, h3, h4⟩

/-- Region bounds for the second extension loop. -/
theorem extNonjunkRight_bounds (a b : List Char) (ahi bhi : Nat)
    (alo blo besti bestj bestsize : Nat) (h1 : alo ≤ besti) (h2 : blo ≤ bestj)
    (h3 : besti + bestsize ≤ ahi) (h4 : bestj + bestsize ≤ bhi) :
    alo ≤ (extNonjunkRight a b ahi bhi besti bestj bestsize).1 ∧
    blo ≤ (extNonjunkRight a b ahi bhi besti bestj bestsize).2.1 ∧
    (extNonjunkRight a b ahi bhi besti bestj bestsize).1 +
      (extNonjunkRight a b ahi bhi besti bestj bestsize).2.2 ≤ ahi ∧
    (extNonjunkRight a b ahi bhi besti bestj bestsize).2.1 +
      (extNonjunkRight a b ahi bhi besti bestj bestsize).2.2 ≤ bhi := by
  unfold extNonjunkRight
  exact extRightAux_bounds a b ahi bhi false alo blo besti bestj h1 h2 _ bestsize h3 h4

/-- Region bounds for the fourth extension loop. -/
theorem extJunkRight_bounds (a b : List Char) (ahi bhi : Nat)
    (alo blo besti bestj bestsize : Nat) (h1 : alo ≤ besti) (h2 : blo ≤ bestj)
    (h3 : besti + bestsize ≤ ahi) (h4 : bestj + bestsize ≤ bhi) :
    alo ≤ (extJunkRight a b ahi bhi besti bestj bestsize).1 ∧
    blo ≤ (extJunkRight a b ahi bhi besti bestj bestsize).2.1 ∧
    (extJunkRight a b ahi bhi besti bestj bestsize).1 +
      (extJunkRight a b ahi bhi besti bestj bestsize).2.2 ≤ ahi ∧
    (extJunkRight a b ahi bhi besti bestj bestsize).2.1 +
      (extJunkRight a b ahi bhi besti bestj bestsize).2.2 ≤ bhi := by
  unfold extJunkRight
  exact extRightAux_bounds a b ahi bhi true alo blo besti bestj h1 h2 _ bestsize h3 h4

/-- The triple returned by `find_longest_match` lies inside the requested
region. -/
theorem flm_bounds (a b : List Char) (alo ahi blo bhi : Nat)
    (hab : alo ≤ ahi) (hbb : blo ≤ bhi) :
    alo ≤ (find_longest_match a b alo ahi blo bhi).1 ∧
    blo ≤ (find_longest_match a b alo ahi blo bhi).2.1 ∧
    (find_longest_match a b alo ahi blo bhi).1 +
      (find_longest_match a b alo ahi blo bhi).2.2 ≤ ahi ∧
    (find_longest_match a b alo ahi blo bhi).2.1 +
      (find_longest_match a b alo ahi blo bhi).2.2 ≤ bhi := by
  unfold find_longest_match
  have h0 := flmOuter_bounds a b blo bhi alo ahi (ahi - alo) alo (Nat.le_refl _)
    (by omega) (fun _ => 0) (alo, blo, 0)
    (by intro j; exact ⟨Nat.zero_le _, Nat.zero_le _⟩)
    (Nat.le_refl _) (Nat.le_refl _) (by simpa using hab) (by simpa using hbb)
  have h1 := extNonjunkLeft_bounds a b alo blo ahi bhi _ _ _
    h0.1 h0.2.1 h0.2.2.1 h0.2.2.2
  have h2 := extNonjunkRight_bounds a b ahi bhi alo blo _ _ _ h1.1 h1.2.1
    h1.2.2.1 h1.2.2.2
  have h3 := extJunkLeft_bounds a b alo blo ahi bhi _ _ _
    h2.1 h2.2.1 h2.2.2.1 h2.2.2.2
  have h4 := extJunkRight_bounds a b ahi bhi alo blo _ _ _ h3.1 h3.2.1
    h3.2.2.1 h3.2.2.2
  exact h4

/-- Diagonal invariant of the inner loop when both sequences are `s` and
the region is `[lo, hi)` on both sides: the fresh run table records
exactly the `nrun` values of the processed positions, the best block stays
on the diagonal, its size dominates every earlier diagonal run (and the
current one once the diagonal position has been processed), and a best
size of zero means the best block was never moved. -/
theorem flmInner_diag (s : List Char) (lo hi : Nat) (hhi : hi ≤ s.length)
    (i : Nat) (hilo : lo ≤ i) (hihi : i < hi)
    (j2len : Nat → Nat)
    (hj2 : ∀ x, j2len x = if lo ≤ x ∧ x < hi then
        (if lo < i then nrun s lo (i - 1) x else 0) else 0) :
    ∀ (L P : List Nat), b2j s (chGet s i) = P ++ L →
      ∀ (newj2len : Nat → Nat) (best : Nat × Nat × Nat),
      (∀ x, newj2len x = if x ∈ P ∧ lo ≤ x ∧ x < hi then nrun s lo i x else 0) →
      best.1 = best.2.1 →
      (∀ i', lo ≤ i' → i' < i → nrun s lo i' i' ≤ best.2.2) →
      (i ∈ P → nrun s lo i i ≤ best.2.2) →
      (best.2.2 = 0 → best = (lo, lo, 0)) →
      (∀ x, (flmInner j2len lo hi i L newj2len best).1 x =
          if lo ≤ x ∧ x < hi then nrun s lo i x else 0) ∧
      (flmInner j2len lo hi i L newj2len best).2.1 =
        (flmInner j2len lo hi i L newj2len best).2.2.1 ∧
      (∀ i', lo ≤ i' → i' < i → nrun s lo i' i' ≤
        (flmInner j2len lo hi i L newj2len best).2.2.2) ∧
      (isbjunk s (chGet s i) = false →
        nrun s lo i i ≤ (flmInner j2len lo hi i L newj2len best).2.2.2) ∧
      ((flmInner j2len lo hi i L newj2len best).2.2.2 = 0 →
        (flmInner j2len lo hi i L newj2len best).2 = (lo, lo, 0)) := by
  intro L
  induction L with
  | nil =>
    intro P hFL newj2len best hnew hdiag hprev hself hzero
    refine ⟨?_, hdiag, hprev, ?_, hzero⟩
    · intro x
      show newj2len x = _
      rw [hnew x]
      by_cases hx : lo ≤ x ∧ x < hi
      · by_cases hxp : x ∈ P
        · rw [if_pos ⟨hxp, hx⟩, if_pos hx]
        · rw [if_neg (fun hc => hxp hc.1), if_pos hx]
          have hxnm : x ∉ b2j s (chGet s i) := by
            rw [hFL, List.append_nil]
            exact hxp
          exact (nrun_eq_zero_of_not_mem s lo i x
            (Nat.lt_of_lt_of_le hx.2 hhi) hxnm).symm
      · rw [if_neg (fun hc => hx hc.2), if_neg hx]
    · intro hnj
      have hmem : i ∈ b2j s (chGet s i) :=
        (mem_b2j s (chGet s i) i).mpr ⟨hnj, Nat.lt_of_lt_of_le hihi hhi, rfl⟩
      rw [hFL, List.append_nil] at hmem
      exact hself hmem
  | cons j rest ih =>
    intro P hFL newj2len best hnew hdiag hprev hself hzero
    have hsorted := b2j_sorted s (chGet s i)
    rw [hFL] at hsorted
    by_cases hb1 : j < lo
    · -- skipped by `continue`
      rw [flmInner, if_pos hb1]
      have hFL' : b2j s (chGet s i) = (P ++ [j]) ++ rest := by
        rw [hFL]
        simp
      have hnew' : ∀ x, newj2len x =
          if x ∈ P ++ [j] ∧ lo ≤ x ∧ x < hi then nrun s lo i x else 0 := by
        intro x
        rw [hnew x]
        by_cases hx : x ∈ P ∧ lo ≤ x ∧ x < hi
        · rw [if_pos hx, if_pos ⟨List.mem_append_left _ hx.1, hx.2⟩]
        · have hcond : ¬(x ∈ P ++ [j] ∧ lo ≤ x ∧ x < hi) := by
            rintro ⟨hxp, hlo2, hhi2⟩
            rcases List.mem_append.mp hxp with hxp | hxp
            · exact hx ⟨hxp, hlo2, hhi2⟩
            · rw [List.mem_singleton] at hxp
              subst hxp
              omega
          rw [if_neg hx, if_neg hcond]
      have hself' : i ∈ P ++ [j] → nrun s lo i i ≤ best.2.2 := by
        intro hip
        rcases List.mem_append.mp hip with hip | hip
        · exact hself hip
        · rw [List.mem_singleton] at hip
          omega
      exact ih (P ++ [j]) hFL' newj2len best hnew' hdiag hprev hself' hzero
    · rw [flmInner, if_neg hb1]
      by_cases hb2 : hi ≤ j
      · -- `break`: every remaining position is outside the region
        rw [if_pos hb2]
        have houtside : ∀ x, lo ≤ x → x < hi → x ∈ j :: rest → False := by
          intro x _ hhi2 hx
          rcases List.mem_cons.mp hx with rfl | hx
          · omega
          · have hj := (List.pairwise_cons.mp
              (List.pairwise_append.mp hsorted).2.1).1 x hx
            omega
        refine ⟨?_, hdiag, hprev, ?_, hzero⟩
        · intro x
          show newj2len x = _
          rw [hnew x]
          by_cases hx : lo ≤ x ∧ x < hi
          · by_cases hxp : x ∈ P
            · rw [if_pos ⟨hxp, hx⟩, if_pos hx]
            · rw [if_neg (fun hc => hxp hc.1), if_pos hx]
              have hxnm : x ∉ b2j s (chGet s i) := by
                rw [hFL]
                intro hxm
                rcases List.mem_append.mp hxm with hxm | hxm
                · exact hxp hxm
                · exact houtside x hx.1 hx.2 hxm
              exact (nrun_eq_zero_of_not_mem s lo i x
                (Nat.lt_of_lt_of_le hx.2 hhi) hxnm).symm
          · rw [if_neg (fun hc => hx hc.2), if_neg hx]
        · intro hnj
          have hmem : i ∈ b2j s (chGet s i) :=
            (mem_b2j s (chGet s i) i).mpr ⟨hnj, Nat.lt_of_lt_of_le hihi hhi, rfl⟩
          rw [hFL] at hmem
          rcases List.mem_append.mp hmem with hmem | hmem
          · exact hself hmem
          · exact absurd hmem (fun hc => houtside i hilo hihi hc)
      · -- processed: `lo ≤ j < hi`
        rw [if_neg hb2]
        dsimp only
        have hblo : lo ≤ j := Nat.not_lt.mp hb1
        have hbhi : j < hi := Nat.not_le.mp hb2
        have hjF : j ∈ b2j s (chGet s i) := by
          rw [hFL]
          exact List.mem_append_right _ (List.mem_cons_self _ _)
        obtain ⟨hnonjunk, hjn, hchar⟩ := (mem_b2j s (chGet s i) j).mp hjF
        have hcond : chGet s i = chGet s j ∧ isbjunk s (chGet s j) = false :=
          ⟨hchar.symm, by rw [hchar]; exact hnonjunk⟩
        have hk : (if j = 0 then 0 else j2len (j - 1)) + 1 = nrun s lo i j := by
          by_cases hbij : lo < i ∧ lo < j
          · have hj0 : ¬ j = 0 := by omega
            conv_rhs => rw [nrun]
            rw [if_pos hcond, dif_pos hbij]
            rw [if_neg hj0, hj2 (j - 1),
              if_pos (show lo ≤ j - 1 ∧ j - 1 < hi by omega), if_pos hbij.1]
          · conv_rhs => rw [nrun]
            rw [if_pos hcond, dif_neg hbij]
            by_cases hj0 : j = 0
            · rw [if_pos hj0]
            · rw [if_neg hj0, hj2 (j - 1)]
              by_cases hr : lo ≤ j - 1 ∧ j - 1 < hi
              · have hni : ¬ lo < i := by
                  rcases not_and_or.mp hbij with h | h
                  · exact h
                  · omega
                rw [if_pos hr, if_neg hni]
              · rw [if_neg hr]
        by_cases hupd : best.2.2 < (if j = 0 then 0 else j2len (j - 1)) + 1
        · -- the best block moves: the move is necessarily diagonal
          have hji : j = i := by
            rcases Nat.lt_trichotomy j i with hlt | heq | hgt
            · exfalso
              have h1 := nrun_le_diag_left s lo j i (Nat.le_of_lt hlt)
              have h2 := hprev j hblo hlt
              omega
            · exact heq
            · exfalso
              have h1 := nrun_le_diag_right s lo i j (Nat.le_of_lt hgt)
              have hiF : i ∈ b2j s (chGet s i) :=
                (mem_b2j s (chGet s i) i).mpr
                  ⟨hnonjunk, Nat.lt_of_lt_of_le hihi hhi, rfl⟩
              have hiP : i ∈ P := by
                rw [hFL] at hiF
                rcases List.mem_append.mp hiF with h | h
                · exact h
                · rcases List.mem_cons.mp h with heq2 | h
                  · omega
                  · have := (List.pairwise_cons.mp
                      (List.pairwise_append.mp hsorted).2.1).1 i h
                    omega
              have h2 := hself hiP
              omega
          subst hji
          rw [if_pos hupd]
          have hFL' : b2j s (chGet s j) = (P ++ [j]) ++ rest := by
            rw [hFL]
            simp
          have hnew' : ∀ x, (if x = j then (if j = 0 then 0 else j2len (j - 1)) + 1
              else newj2len x) =
              if x ∈ P ++ [j] ∧ lo ≤ x ∧ x < hi then nrun s lo j x else 0 := by
            intro x
            by_cases hx : x = j
            · rw [if_pos hx, hx]
              rw [if_pos (show j ∈ P ++ [j] ∧ lo ≤ j ∧ j < hi from
                ⟨List.mem_append_right _ (List.mem_singleton.mpr rfl), hblo, hbhi⟩)]
              exact hk
            · rw [if_neg hx, hnew x]
              by_cases hx2 : x ∈ P ∧ lo ≤ x ∧ x < hi
              · rw [if_pos hx2, if_pos ⟨List.mem_append_left _ hx2.1, hx2.2⟩]
              · have hcond2 : ¬(x ∈ P ++ [j] ∧ lo ≤ x ∧ x < hi) := by
                  rintro ⟨hxp, hlo2, hhi2⟩
                  rcases List.mem_append.mp hxp with hxp | hxp
                  · exact hx2 ⟨hxp, hlo2, hhi2⟩
                  · exact hx (List.mem_singleton.mp hxp)
                rw [if_neg hx2, if_neg hcond2]
          have hprev' : ∀ i', lo ≤ i' → i' < j → nrun s lo i' i' ≤
              (if j = 0 then 0 else j2len (j - 1)) + 1 := by
            intro i' h1 h2
            have := hprev i' h1 h2
            omega
          have hself' : j ∈ P ++ [j] → nrun s lo j j ≤
              (if j = 0 then 0 else j2len (j - 1)) + 1 := by
            intro _
            omega
          have hzero' : ((j + 1 - ((if j = 0 then 0 else j2len (j - 1)) + 1),
              j + 1 - ((if j = 0 then 0 else j2len (j - 1)) + 1),
              (if j = 0 then 0 else j2len (j - 1)) + 1) : Nat × Nat × Nat).2.2 = 0 →
              ((j + 1 - ((if j = 0 then 0 else j2len (j - 1)) + 1),
                j + 1 - ((if j = 0 then 0 else j2len (j - 1)) + 1),
                (if j = 0 then 0 else j2len (j - 1)) + 1) : Nat × Nat × Nat) =
                (lo, lo, 0) := by
            intro hc
            have hc' : (if j = 0 then 0 else j2len (j - 1)) + 1 = 0 := hc
            omega
          exact ih (P ++ [j]) hFL' _ _ hnew' rfl hprev' hself' hzero'
        · -- no move: the computed run is dominated by the current best
          rw [if_neg hupd]
          have hFL' : b2j s (chGet s i) = (P ++ [j]) ++ rest := by
            rw [hFL]
            simp
          have hnew' : ∀ x, (if x = j then (if j = 0 then 0 else j2len (j - 1)) + 1
              else newj2len x) =
              if x ∈ P ++ [j] ∧ lo ≤ x ∧ x < hi then nrun s lo i x else 0 := by
            intro x
            by_cases hx : x = j
            · rw [if_pos hx, hx]
              rw [if_pos (show j ∈ P ++ [j] ∧ lo ≤ j ∧ j < hi from
                ⟨List.mem_append_right _ (List.mem_singleton.mpr rfl), hblo, hbhi⟩)]
              exact hk
            · rw [if_neg hx, hnew x]
              by_cases hx2 : x ∈ P ∧ lo ≤ x ∧ x < hi
              · rw [if_pos hx2, if_pos ⟨List.mem_append_left _ hx2.1, hx2.2⟩]
              · have hcond2 : ¬(x ∈ P ++ [j] ∧ lo ≤ x ∧ x < hi) := by
                  rintro ⟨hxp, hlo2, hhi2⟩
                  rcases List.mem_append.mp hxp with hxp | hxp
                  · exact hx2 ⟨hxp, hlo2, hhi2⟩
                  · exact hx (List.mem_singleton.mp hxp)
                rw [if_neg hx2, if_neg hcond2]
          have hself' : i ∈ P ++ [j] → nrun s lo i i ≤ best.2.2 := by
            intro hip
            rcases List.mem_append.mp hip with hip | hip
            · exact hself hip
            · rw [List.mem_singleton] at hip
              subst hip
              omega
          exact ih (P ++ [j]) hFL' _ _ hnew' hdiag hprev hself' hzero

/-- Diagonal invariant of the outer loop on identical sequences: the best
block stays diagonal, its size dominates every diagonal run of the
region's processed rounds, and size zero means it never moved. -/
theorem flmOuter_diag (s : List Char) (lo hi : Nat) (hhi : hi ≤ s.length) :
    ∀ (cnt i : Nat), lo ≤ i → i + cnt = hi →
      ∀ (j2len : Nat → Nat) (best : Nat × Nat × Nat),
      (∀ x, j2len x = if lo ≤ x ∧ x < hi then
          (if lo < i then nrun s lo (i - 1) x else 0) else 0) →
      best.1 = best.2.1 →
      (∀ i', lo ≤ i' → i' < i → nrun s lo i' i' ≤ best.2.2) →
      (best.2.2 = 0 → best = (lo, lo, 0)) →
      (flmOuter s s lo hi i cnt j2len best).1 =
        (flmOuter s s lo hi i cnt j2len best).2.1 ∧
      (∀ i', lo ≤ i' → i' < hi →
        nrun s lo i' i' ≤ (flmOuter s s lo hi i cnt j2len best).2.2) ∧
      ((flmOuter s s lo hi i cnt j2len best).2.2 = 0 →
        (flmOuter s s lo hi i cnt j2len best) = (lo, lo, 0)) := by
  intro cnt
  induction cnt with
  | zero =>
    intro i hilo hcnt j2len best hj2 hdiag hprev hzero
    refine ⟨hdiag, ?_, hzero⟩
    intro i' h1 h2
    exact hprev i' h1 (by omega)
  | succ cnt ih =>
    intro i hilo hcnt j2len best hj2 hdiag hprev hzero
    rw [flmOuter]
    have hin := flmInner_diag s lo hi hhi i hilo (by omega) j2len hj2
      (b2j s (chGet s i)) [] (by simp) (fun _ => 0) best
      (by intro x; simp) hdiag hprev (by simp) hzero
    obtain ⟨hC1, hC2, hC3, hC4, hC5⟩ := hin
    have hj2' : ∀ x, (flmInner j2len lo hi i (b2j s (chGet s i)) (fun _ => 0) best).1 x =
        if lo ≤ x ∧ x < hi then
          (if lo < i + 1 then nrun s lo (i + 1 - 1) x else 0) else 0 := by
      intro x
      rw [hC1 x]
      by_cases hx : lo ≤ x ∧ x < hi
      · have h1 : lo < i + 1 := by omega
        rw [if_pos hx, if_pos hx, if_pos h1]
        simp
      · rw [if_neg hx, if_neg hx]
    have hprev' : ∀ i', lo ≤ i' → i' < i + 1 → nrun s lo i' i' ≤
        (flmInner j2len lo hi i (b2j s (chGet s i)) (fun _ => 0) best).2.2.2 := by
      intro i' h1 h2
      by_cases hii : i' < i
      · exact hC3 i' h1 hii
      · have heq : i' = i := by omega
        subst heq
        cases hjk : isbjunk s (chGet s i')
        · exact hC4 hjk
        · rw [nrun_diag_junk s lo i' hjk]
          exact Nat.zero_le _
    exact ih (i + 1) (by omega) (by omega) _ _ hj2' hC2 hprev' hC5

/-- The first/third extension loops preserve diagonality and never shrink
the block, on identical sequences with a diagonal region. -/
theorem extNonjunkLeft_diag (s : List Char) (lo : Nat) :
    ∀ (besti bestj bestsize : Nat), besti = bestj →
      (extNonjunkLeft s s lo lo besti bestj bestsize).1 =
        (extNonjunkLeft s s lo lo besti bestj bestsize).2.1 ∧
      bestsize ≤ (extNonjunkLeft s s lo lo besti bestj bestsize).2.2 := by
  intro besti
  induction besti with
  | zero =>
    intro bestj bestsize hd
    exact ⟨hd, Nat.le_refl _⟩
  | succ besti ih =>
    intro bestj bestsize hd
    rw [extNonjunkLeft]
    split_ifs with hc
    · have := ih (bestj - 1) (bestsize + 1) (by omega)
      exact ⟨this.1, by omega⟩
    · exact ⟨hd, Nat.le_refl _⟩

/-- Same statement for `extJunkLeft`. -/
theorem extJunkLeft_diag (s : List Char) (lo : Nat) :
    ∀ (besti bestj bestsize : Nat), besti = bestj →
      (extJunkLeft s s lo lo besti bestj bestsize).1 =
        (extJunkLeft s s lo lo besti bestj bestsize).2.1 ∧
      bestsize ≤ (extJunkLeft s s lo lo besti bestj bestsize).2.2 := by
  intro besti
  induction besti with
  | zero =>
    intro bestj bestsize hd
    exact ⟨hd, Nat.le_refl _⟩
  | succ besti ih =>
    intro bestj bestsize hd
    rw [extJunkLeft]
    split_ifs with hc
    · have := ih (bestj - 1) (bestsize + 1) (by omega)
      exact ⟨this.1, by omega⟩
    · exact ⟨hd, Nat.le_refl _⟩

/-- The rightward extension loops leave the block start unchanged and
never shrink the block. -/
theorem extRightAux_spec (a b : List Char) (ahi bhi : Nat) (junkFlag : Bool)
    (besti bestj : Nat) :
    ∀ (rem bestsize : Nat),
      (extRightAux a b ahi bhi junkFlag besti bestj rem bestsize).1 = besti ∧
      (extRightAux a b ahi bhi junkFlag besti bestj rem bestsize).2.1 = bestj ∧
      bestsize ≤ (extRightAux a b ahi bhi junkFlag besti bestj rem bestsize).2.2 := by
  intro rem
  induction rem with
  | zero =>
    intro bestsize
    exact ⟨rfl, rfl, Nat.le_refl _⟩
  | succ rem ih =>
    intro bestsize
    rw [extRightAux]
    split_ifs with hc
    · have := ih (bestsize + 1)
      exact ⟨this.1, this.2.1, by omega⟩
    · exact ⟨rfl, rfl, Nat.le_refl _⟩

/-- On identical sequences over a non-empty diagonal region,
`find_longest_match` returns a diagonal block of positive size. -/
theorem flm_self_spec (s : List Char) (lo hi : Nat) (hhi : hi ≤ s.length)
    (hlh : lo < hi) :
    (find_longest_match s s lo hi lo hi).1 =
      (find_longest_match s s lo hi lo hi).2.1 ∧
    1 ≤ (find_longest_match s s lo hi lo hi).2.2 := by
  obtain ⟨hd0, hK0, hz0⟩ := flmOuter_diag s lo hi hhi (hi - lo) lo (Nat.le_refl _)
    (by omega) (fun _ => 0) (lo, lo, 0)
    (by intro x; split_ifs with h1 h2 <;> first | rfl | omega) rfl
    (by intro i' h1 h2; omega) (fun _ => rfl)
  unfold find_longest_match
  dsimp only
  set m0 := flmOuter s s lo hi lo (hi - lo) (fun _ => 0) (lo, lo, 0) with hm0
  obtain ⟨hd1, hmono1⟩ := extNonjunkLeft_diag s lo m0.1 m0.2.1 m0.2.2 hd0
  set m1 := extNonjunkLeft s s lo lo m0.1 m0.2.1 m0.2.2 with hm1
  have hunfold2 : extNonjunkRight s s hi hi m1.1 m1.2.1 m1.2.2 =
      extRightAux s s hi hi false m1.1 m1.2.1 (hi - (m1.1 + m1.2.2)) m1.2.2 := rfl
  obtain ⟨ha2, hb2, hmono2⟩ := extRightAux_spec s s hi hi false m1.1 m1.2.1
    (hi - (m1.1 + m1.2.2)) m1.2.2
  rw [hunfold2]
  set m2 := extRightAux s s hi hi false m1.1 m1.2.1 (hi - (m1.1 + m1.2.2)) m1.2.2
    with hm2
  have hd2 : m2.1 = m2.2.1 := by
    rw [ha2, hb2]
    exact hd1
  obtain ⟨hd3, hmono3⟩ := extJunkLeft_diag s lo m2.1 m2.2.1 m2.2.2 hd2
  set m3 := extJunkLeft s s lo lo m2.1 m2.2.1 m2.2.2 with hm3
  have hunfold4 : extJunkRight s s hi hi m3.1 m3.2.1 m3.2.2 =
      extRightAux s s hi hi true m3.1 m3.2.1 (hi - (m3.1 + m3.2.2)) m3.2.2 := rfl
  obtain ⟨ha4, hb4, hmono4⟩ := extRightAux_spec s s hi hi true m3.1 m3.2.1
    (hi - (m3.1 + m3.2.2)) m3.2.2
  rw [hunfold4]
  set m4 := extRightAux s s hi hi true m3.1 m3.2.1 (hi - (m3.1 + m3.2.2)) m3.2.2
    with hm4
  refine ⟨by rw [ha4, hb4]; exact hd3, ?_⟩
  by_cases hjunk : isbjunk s (chGet s lo) = false
  · have h1 : 1 ≤ m0.2.2 :=
      Nat.le_trans (nrun_diag_pos s lo lo hjunk) (hK0 lo (Nat.le_refl _) hlh)
    omega
  · have hjunk' : isbjunk s (chGet s lo) = true := by
      cases h : isbjunk s (chGet s lo)
      · exact absurd h hjunk
      · rfl
    by_cases hK : m0.2.2 = 0
    · have hz := hz0 hK
      have h1eq : m1 = (lo, lo, 0) := by
        rw [hm1, hz]
        show extNonjunkLeft s s lo lo lo lo 0 = (lo, lo, 0)
        cases lo with
        | zero => rfl
        | succ n =>
          rw [extNonjunkLeft, if_neg]
          rintro ⟨hc, -⟩
          omega
      have h2eq : m2 = (lo, lo, 0) := by
        rw [hm2, h1eq]
        show extRightAux s s hi hi false lo lo (hi - (lo + 0)) 0 = (lo, lo, 0)
        rcases hr : hi - (lo + 0) with _ | r
        · exact absurd hr (by omega)
        · rw [extRightAux, if_neg]
          rintro ⟨-, -, hj, -⟩
          rw [Nat.add_zero] at hj
          rw [hjunk'] at hj
          exact Bool.noConfusion hj
      have h3eq : m3 = (lo, lo, 0) := by
        rw [hm3, h2eq]
        show extJunkLeft s s lo lo lo lo 0 = (lo, lo, 0)
        cases lo with
        | zero => rfl
        | succ n =>
          rw [extJunkLeft, if_neg]
          rintro ⟨hc, -⟩
          omega
      rw [hm4, h3eq]
      show 1 ≤ (extRightAux s s hi hi true lo lo (hi - (lo + 0)) 0).2.2
      rcases hr : hi - (lo + 0) with _ | r
      · exact absurd hr (by omega)
      · rw [extRightAux, if_pos
          ⟨by omega, by omega, by rw [Nat.add_zero]; exact hjunk', rfl⟩]
        have hfin := (extRightAux_spec s s hi hi true lo lo r (0 + 1)).2.2
        omega
    · omega

/-- On identical sequences, the region-splitting recursion accounts for
every position: the matching blocks of a diagonal region cover it
entirely. -/
theorem matchesTotalF_diag (s : List Char) :
    ∀ (fuel lo hi : Nat), lo ≤ hi → hi ≤ s.length → hi - lo ≤ fuel →
      matchesTotalF s s fuel lo hi lo hi = hi - lo := by
  intro fuel
  induction fuel with
  | zero =>
    intro lo hi h1 _ h3
    rw [matchesTotalF]
    omega
  | succ fuel ih =>
    intro lo hi h1 h2 h3
    obtain ⟨hb1, hb2, hb3, hb4⟩ := flm_bounds s s lo hi lo hi h1 h1
    by_cases hlh : lo < hi
    · obtain ⟨hdiag, hpos⟩ := flm_self_spec s lo hi h2 hlh
      rw [matchesTotalF]
      rw [if_neg (by omega)]
      rw [← hdiag]
      by_cases hL : lo < (find_longest_match s s lo hi lo hi).1
      · rw [if_pos ⟨hL, hL⟩,
          ih lo (find_longest_match s s lo hi lo hi).1 (by omega) (by omega) (by omega)]
        by_cases hR : (find_longest_match s s lo hi lo hi).1 +
            (find_longest_match s s lo hi lo hi).2.2 < hi
        · rw [if_pos ⟨hR, hR⟩,
            ih ((find_longest_match s s lo hi lo hi).1 +
              (find_longest_match s s lo hi lo hi).2.2) hi (by omega) h2 (by omega)]
          omega
        · rw [if_neg (fun hc => hR hc.1)]
          omega
      · rw [if_neg (fun hc => hL hc.1)]
        by_cases hR : (find_longest_match s s lo hi lo hi).1 +
            (find_longest_match s s lo hi lo hi).2.2 < hi
        · rw [if_pos ⟨hR, hR⟩,
            ih ((find_longest_match s s lo hi lo hi).1 +
              (find_longest_match s s lo hi lo hi).2.2) hi (by omega) h2 (by omega)]
          omega
        · rw [if_neg (fun hc => hR hc.1)]
          omega
    · rw [matchesTotalF]
      rw [if_pos (by omega)]
      omega

/-- Source `sum of matching block sizes` on a pair of identical sequences is the
whole length. -/
theorem seqMatches_self (s : List Char) : seqMatches s s = s.length := by
  unfold seqMatches
  rw [matchesTotalF_diag s (s.length + s.length) 0 s.length (Nat.zero_le _)
    (Nat.le_refl _) (by omega)]
  omega

/-- C4 counterexample: the similarity ratio the Fuzzy matcher uses
(`difflib.SequenceMatcher(None, a, b).ratio()`) is not symmetric:
on the pair `tide` / `diet` it returns 0.25 one way and 0.5 the other. -/
theorem seq_ratio_not_symmetric :
    seqRatioVal ("tide").data ("diet").data = (1 : Rat) / 4 ∧
    seqRatioVal ("diet").data ("tide").data = (1 : Rat) / 2 ∧
    seqRatioVal ("tide").data ("diet").data ≠ seqRatioVal ("diet").data ("tide").data := by
  have h1 : seqMatches ("tide").data ("diet").data = 1 := by decide
  have h2 : seqMatches ("diet").data ("tide").data = 2 := by decide
  have hl1 : ("tide").data.length = 4 := by decide
  have hl2 : ("diet").data.length = 4 := by decide
  have e1 : seqRatioVal ("tide").data ("diet").data = (1 : Rat) / 4 := by
    rw [seqRatioVal, h1, hl1, hl2]
    norm_num
  have e2 : seqRatioVal ("diet").data ("tide").data = (1 : Rat) / 2 := by
    rw [seqRatioVal, h2, hl1, hl2]
    norm_num
  refine ⟨e1, e2, ?_⟩
  rw [e1, e2]
  norm_num

/-- C4 (amended): the ratio returns 1.0 whenever both strings are
identical (including the empty string, via the `length = 0` branch of
`_calculate_ratio`); determinism is immediate since the embedded ratio is
a pure function of its two arguments.  (Symmetry, the third part of the
original claim, fails — see the counterexample.) -/
theorem seq_ratio_self_eq_one (a : List Char) : seqRatioVal a a = 1 := by
  unfold seqRatioVal
  rw [seqMatches_self]
  by_cases h : a.length + a.length ≠ 0
  · rw [if_pos h]
    have hn : (a.length : Rat) ≠ 0 := by
      have hz : a.length ≠ 0 := by omega
      exact_mod_cast hz
    rw [div_eq_one_iff_eq (by intro hc; apply hn; linarith)]
    ring
  · rw [if_neg h]
